import Mathlib

/-!
Verification development for the scientific-calculator repository
(`src/Calculator.tsx` engine and `convex/calculator.ts` history store).

The JavaScript number type is modelled by `JSNum`: an exact rational
(`Q`, a normalized `Int`-numerator / `Nat`-denominator pair) together
with the IEEE-754 special values `NaN`, `Infinity` and `-Infinity`.
This is the usual exact-rational idealization of double arithmetic:
rounding, `-0`, overflow and underflow are not modelled.  `String(v)`
follows ECMA-262 `Number::toString`, including exponent notation for
magnitudes outside `[10⁻⁶, 10²¹)`; only mantissa digits past the
twentieth are truncated, an idealization of shortest-round-trip digit
selection that is exact on every string a claim evaluates.  The transcendental functions (`Math.sin`, `Math.pow`,
...) have no exact rational counterpart; the engine is parametrized by
a `JsMath` structure carrying them, and every theorem holds for every
interpretation of that structure.
-/

/-- Exact rational value of a finite JavaScript number: numerator and
positive denominator, kept normalized by the smart constructor
`Q.normalize`. -/
structure Q where
  num : Int
  den : Nat
deriving DecidableEq

/-- Normalize a fraction `n / d` (with `d` a `Nat`) by the gcd; the
degenerate denominator `0` (never produced by the embedding) maps to `0`. -/
def Q.normalize (n : Int) (d : Nat) : Q :=
  if d = 0 then ⟨0, 1⟩
  else
    let g := Nat.gcd n.natAbs d
    ⟨Int.fdiv n (Int.ofNat g), d / g⟩

def Q.ofInt (n : Int) : Q := ⟨n, 1⟩

def Q.add (a b : Q) : Q := Q.normalize (a.num * Int.ofNat b.den + b.num * Int.ofNat a.den) (a.den * b.den)

def Q.neg (a : Q) : Q := ⟨-a.num, a.den⟩

def Q.sub (a b : Q) : Q := Q.add a (Q.neg b)

def Q.mul (a b : Q) : Q := Q.normalize (a.num * b.num) (a.den * b.den)

/-- Multiplicative inverse; `0⁻¹` is never consulted by the embedding
(the JavaScript division sites test for a zero divisor first). -/
def Q.inv (a : Q) : Q :=
  if a.num = 0 then ⟨0, 1⟩
  else if 0 < a.num then ⟨Int.ofNat a.den, a.num.toNat⟩
  else ⟨-(Int.ofNat a.den), (-a.num).toNat⟩

def Q.div (a b : Q) : Q := Q.mul a (Q.inv b)

/-- `Math.floor` on a rational. -/
def Q.floor (a : Q) : Int := Int.fdiv a.num (Int.ofNat a.den)

/-- Truncation toward zero, as used by the JavaScript `%` operator. -/
def Q.trunc (a : Q) : Int :=
  if 0 ≤ a.num then Q.floor a else -(Int.fdiv (-a.num) (Int.ofNat a.den))

/-- Value-level zero test (`=== 0` in JavaScript). -/
def Q.isZero (a : Q) : Bool := a.num = 0

/-- A JavaScript number: a finite rational or one of the special values. -/
inductive JSNum where
  | finite : Q → JSNum
  | nan : JSNum
  | inf : JSNum
  | ninf : JSNum
deriving DecidableEq

/-- `=== 0` on a JavaScript number (`NaN` and the infinities are not `0`). -/
def jsIsZero : JSNum → Bool
  | .finite q => q.isZero
  | _ => false

/-- JavaScript truthiness of a number: `0` and `NaN` are falsy. -/
def jsTruthy : JSNum → Bool
  | .finite q => !q.isZero
  | .nan => false
  | _ => true

/-- `v || 0` for a JavaScript number `v`. -/
def jsOr0 (v : JSNum) : JSNum := if jsTruthy v then v else .finite ⟨0, 1⟩

def jsNeg : JSNum → JSNum
  | .finite a => .finite (Q.neg a)
  | .nan => .nan
  | .inf => .ninf
  | .ninf => .inf

def jsAdd : JSNum → JSNum → JSNum
  | .nan, _ => .nan
  | _, .nan => .nan
  | .finite a, .finite b => .finite (Q.add a b)
  | .inf, .ninf => .nan
  | .ninf, .inf => .nan
  | .inf, _ => .inf
  | .ninf, _ => .ninf
  | .finite _, .inf => .inf
  | .finite _, .ninf => .ninf

def jsSub (a b : JSNum) : JSNum := jsAdd a (jsNeg b)

def jsMul : JSNum → JSNum → JSNum
  | .nan, _ => .nan
  | _, .nan => .nan
  | .finite a, .finite b => .finite (Q.mul a b)
  | .finite a, .inf => if a.num = 0 then .nan else if 0 < a.num then .inf else .ninf
  | .finite a, .ninf => if a.num = 0 then .nan else if 0 < a.num then .ninf else .inf
  | .inf, .finite b => if b.num = 0 then .nan else if 0 < b.num then .inf else .ninf
  | .ninf, .finite b => if b.num = 0 then .nan else if 0 < b.num then .ninf else .inf
  | .inf, .inf => .inf
  | .inf, .ninf => .ninf
  | .ninf, .inf => .ninf
  | .ninf, .ninf => .inf

/-- JavaScript `/` (the sign of `0` is not modelled: `x / 0` for `x > 0`
is `Infinity`, matching `x / +0`). -/
def jsDiv : JSNum → JSNum → JSNum
  | .nan, _ => .nan
  | _, .nan => .nan
  | .finite a, .finite b =>
    if b.num = 0 then
      (if a.num = 0 then .nan else if 0 < a.num then .inf else .ninf)
    else .finite (Q.div a b)
  | .finite _, .inf => .finite ⟨0, 1⟩
  | .finite _, .ninf => .finite ⟨0, 1⟩
  | .inf, .finite b => if 0 ≤ b.num then .inf else .ninf
  | .ninf, .finite b => if 0 ≤ b.num then .ninf else .inf
  | .inf, _ => .nan
  | .ninf, _ => .nan

/-- JavaScript `%`: remainder with the sign of the dividend. -/
def jsMod : JSNum → JSNum → JSNum
  | .nan, _ => .nan
  | _, .nan => .nan
  | .inf, _ => .nan
  | .ninf, _ => .nan
  | .finite a, .finite b =>
    if b.num = 0 then .nan
    else .finite (Q.sub a (Q.mul b (Q.ofInt (Q.trunc (Q.div a b)))))
  | .finite a, .inf => .finite a
  | .finite a, .ninf => .finite a

/-- The transcendental part of the JavaScript `Math` object.  These
functions produce irrational doubles with no exact rational model, so
the embedding is parametric in them; every theorem below holds for
every interpretation. -/
structure JsMath where
  sin : JSNum → JSNum
  cos : JSNum → JSNum
  tan : JSNum → JSNum
  log10 : JSNum → JSNum
  ln : JSNum → JSNum
  sqrt : JSNum → JSNum
  pow : JSNum → JSNum → JSNum

/-- An arbitrary interpretation of `JsMath`, used only to instantiate
theorems that hold for every interpretation. -/
def anyJsMath : JsMath :=
  ⟨fun _ => .nan, fun _ => .nan, fun _ => .nan, fun _ => .nan,
   fun _ => .nan, fun _ => .nan, fun _ _ => .nan⟩

/-- The exact rational value of the IEEE-754 double `Math.PI`
(`884279719003555 / 2^48`). -/
def mathPI : Q := ⟨884279719003555, 281474976710656⟩

/-- The exact rational value of the IEEE-754 double `Math.E`
(`6121026514868073 / 2^51`). -/
def mathE : Q := ⟨6121026514868073, 2251799813685248⟩

/-- The decimal digit character for `n ≤ 9` (and `'0'` past the range,
which is never consulted). -/
def digitChar (n : Nat) : Char :=
  if n = 0 then '0' else if n = 1 then '1' else if n = 2 then '2'
  else if n = 3 then '3' else if n = 4 then '4' else if n = 5 then '5'
  else if n = 6 then '6' else if n = 7 then '7' else if n = 8 then '8'
  else if n = 9 then '9' else '0'

/-- Decimal digits of a natural number, fuelled to stay structural; the
fuel is always at least the number itself, which suffices. -/
def natToCharsAux : Nat → Nat → List Char
  | 0, n => [digitChar n]
  | fuel + 1, n =>
    if n < 10 then [digitChar n]
    else natToCharsAux fuel (n / 10) ++ [digitChar (n % 10)]

def natToChars (n : Nat) : List Char := natToCharsAux n n

/-- Decimal expansion of a rational in `[0, 1)`, truncated at `fuel`
digits (terminating decimals - the only ones the claims evaluate -
print exactly; JavaScript's shortest-round-trip printing of the rest is
idealized by truncation). -/
def fracDigits : Nat → Q → List Char
  | 0, _ => []
  | fuel + 1, x =>
    if x.num = 0 then []
    else
      let y : Int := Int.fdiv (x.num * 10) (Int.ofNat x.den)
      digitChar y.toNat :: fracDigits fuel ⟨x.num * 10 - y * Int.ofNat x.den, x.den⟩

/-- Smallest exponent in `[k, k + fuel]` with `den ≤ num * 10 ^ k`: the
decimal-exponent search used when printing a positive rational below
`10⁻⁶`. -/
def expSmall : Nat → Nat → Nat → Nat → Nat
  | 0, _, _, k => k
  | fuel + 1, num, den, k => if den ≤ num * 10 ^ k then k else expSmall fuel num den (k + 1)

/-- Exponent-notation digits for the positive rational `num / den`
(ECMA-262 `Number::toString`): one leading mantissa digit, the
fuel-truncated mantissa fraction, `e`, the exponent sign and the decimal
exponent - e.g. `1e+22` and `1e-7`. -/
def expChars (num den : Nat) : List Char :=
  if den * 1000000000000000000000 ≤ num then
    let e := (natToChars (num / den)).length - 1
    let d := den * 10 ^ e
    let fd := fracDigits 20 ⟨Int.ofNat (num % d), d⟩
    digitChar (num / d) :: ((if fd.isEmpty then [] else '.' :: fd) ++ 'e' :: '+' :: natToChars e)
  else
    let k := expSmall den num den 1
    let m2 := num * 10 ^ k
    let fd := fracDigits 20 ⟨Int.ofNat (m2 % den), den⟩
    digitChar (m2 / den) :: ((if fd.isEmpty then [] else '.' :: fd) ++ 'e' :: '-' :: natToChars k)

/-- JavaScript `String(v)` for a number `v`: fixed decimal notation for
`0` and for magnitudes in `[10⁻⁶, 10²¹)`, exponent notation (`"1e+22"`,
`"-1e-7"`) outside that range, per ECMA-262 `Number::toString`. -/
def numToStr : JSNum → String
  | .nan => "NaN"
  | .inf => "Infinity"
  | .ninf => "-Infinity"
  | .finite q =>
    let m : Nat := q.num.natAbs
    if 0 < m ∧ (q.den * 1000000000000000000000 ≤ m ∨ m * 1000000 < q.den) then
      ⟨(if q.num < 0 then ['-'] else []) ++ expChars m q.den⟩
    else
      let ip := natToChars (m / q.den)
      let fd := fracDigits 20 ⟨Int.ofNat (m % q.den), q.den⟩
      ⟨(if q.num < 0 then ['-'] else []) ++ ip ++ (if fd.isEmpty then [] else '.' :: fd)⟩

def charVal (c : Char) : Nat := c.toNat - 48

def digitsToNat (l : List Char) : Nat := l.foldl (fun a c => 10 * a + charVal c) 0

/-- Boolean test: the first list is an initial segment of the second. -/
def prefixB : List Char → List Char → Bool
  | [], _ => true
  | _ :: _, [] => false
  | a :: t, b :: u => decide (a = b) && prefixB t u

/-- JavaScript `parseFloat` on an unsigned tail: the `Infinity` keyword,
or the longest prefix of shape `[0-9]*(.[0-9]*)?([eE][+-]?[0-9]+)?`;
`NaN` when it holds no mantissa digit.  An exponent marker without
digits is not consumed (`parseFloat("1e+") = 1`). -/
def parseUnsignedChars (l : List Char) : JSNum :=
  if prefixB "Infinity".data l then .inf
  else
    let ds := l.takeWhile (fun c => c.isDigit)
    let r1 := l.drop ds.length
    let fs := if r1.headD ' ' = '.' then r1.tail.takeWhile (fun c => c.isDigit) else []
    let r2 := if r1.headD ' ' = '.' then r1.tail.drop fs.length else r1
    let et := if r2.headD ' ' = 'e' ∨ r2.headD ' ' = 'E' then r2.tail else []
    let es := if et.headD ' ' = '+' ∨ et.headD ' ' = '-' then
        et.tail.takeWhile (fun c => c.isDigit)
      else et.takeWhile (fun c => c.isDigit)
    if ds.isEmpty && fs.isEmpty then .nan
    else
      let base := Q.normalize
        (Int.ofNat (digitsToNat ds * 10 ^ fs.length + digitsToNat fs)) (10 ^ fs.length)
      if es.isEmpty then .finite base
      else if et.headD ' ' = '-' then .finite (Q.div base ⟨Int.ofNat (10 ^ digitsToNat es), 1⟩)
      else .finite (Q.mul base ⟨Int.ofNat (10 ^ digitsToNat es), 1⟩)

/-- JavaScript `parseFloat` (leading whitespace is not modelled: no
display string ever starts with whitespace). -/
def jsParseFloat (s : String) : JSNum :=
  if s.data.headD ' ' = '-' then jsNeg (parseUnsignedChars s.data.tail)
  else if s.data.headD ' ' = '+' then parseUnsignedChars s.data.tail
  else parseUnsignedChars s.data

/-- String concatenation through the underlying character lists. -/
def strCat (a b : String) : String := ⟨a.data ++ b.data⟩

/-- `Math.floor` on a JavaScript number (identity on the specials). -/
def jsFloor : JSNum → JSNum
  | .finite q => .finite (Q.ofInt (Q.floor q))
  | v => v

/-- `src/Calculator.tsx` `factorial`: `0` below zero, `1` at `0` and
`1`, otherwise `n * factorial (n - 1)`.  Stated on `Int`: the source is
only ever applied to `Math.floor` of a finite value. -/
def factorial (n : Int) : Int :=
  if n < 0 then 0
  else if n = 0 ∨ n = 1 then 1
  else n * factorial (n - 1)
termination_by n.toNat
decreasing_by omega

def AngleMode : Type := Bool

/-- Degree mode (`'deg'` in the source). -/
def AngleMode.deg : AngleMode := true

/-- Radian mode (`'rad'` in the source). -/
def AngleMode.rad : AngleMode := false

instance : DecidableEq AngleMode := fun a b => instDecidableEqBool a b

/-- One completed calculation as emitted to the history: the
`{expression, result}` pair.  The wall-clock `timestamp` recorded
alongside it is an environmental input with no influence on any engine
behaviour and is not modelled. -/
structure CalcRecord where
  expression : String
  result : String
deriving DecidableEq

/-- The calculator engine state of `src/Calculator.tsx`. -/
structure EngineState where
  display : String
  previousValue : Option JSNum
  operation : Option String
  waitingForOperand : Bool
  memory : JSNum
  history : List CalcRecord
  angleMode : AngleMode
deriving DecidableEq

def initState : EngineState :=
  ⟨"0", none, none, false, .finite ⟨0, 1⟩, [], AngleMode.deg⟩

/-- `inputNumber`. -/
def inputNumber (num : String) (s : EngineState) : EngineState :=
  if s.waitingForOperand then
    { s with display := num, waitingForOperand := false }
  else
    { s with display := if s.display = "0" then num else strCat s.display num }

/-- `display.indexOf(".") !== -1`. -/
def hasDot (l : List Char) : Bool := l.any (fun c => decide (c = '.'))

/-- `inputDecimal`. -/
def inputDecimal (s : EngineState) : EngineState :=
  if s.waitingForOperand then
    { s with display := "0.", waitingForOperand := false }
  else if hasDot s.display.data = false then
    { s with display := ⟨s.display.data ++ ['.']⟩ }
  else s

/-- `clear`. -/
def clear (s : EngineState) : EngineState :=
  { s with display := "0", previousValue := none, operation := none,
           waitingForOperand := false }

/-- `clearEntry`. -/
def clearEntry (s : EngineState) : EngineState := { s with display := "0" }

/-- The backspace button: `display.slice(0, -1) || "0"`. -/
def backspace (s : EngineState) : EngineState :=
  { s with display := if s.display.data.dropLast.isEmpty then "0"
      else ⟨s.display.data.dropLast⟩ }

/-- The `±` button: `String(-parseFloat(display))`. -/
def negate (s : EngineState) : EngineState :=
  { s with display := numToStr (jsNeg (jsParseFloat s.display)) }

/-- `calculate` from the source: the six binary operators, any other
operator string returning the second value. -/
def calculate (M : JsMath) (firstValue secondValue : JSNum) (operation : String) : JSNum :=
  match operation with
  | "+" => jsAdd firstValue secondValue
  | "-" => jsSub firstValue secondValue
  | "×" => jsMul firstValue secondValue
  | "÷" => if jsIsZero secondValue = false then jsDiv firstValue secondValue
           else .finite ⟨0, 1⟩
  | "^" => M.pow firstValue secondValue
  | "mod" => jsMod firstValue secondValue
  | _ => secondValue

/-- JavaScript truthiness of the nullable `operation` string (`null`
and `""` are falsy). -/
def strTruthy : Option String → Bool
  | none => false
  | some s => !(s = "")

/-- `performOperation`.  Note `previousValue || 0`: a staged `NaN`
(falsy) is replaced by `0` before the chained evaluation. -/
def performOperation (M : JsMath) (nextOperation : String) (s : EngineState) : EngineState :=
  let inputValue := jsParseFloat s.display
  let s1 :=
    match s.previousValue with
    | none => { s with previousValue := some inputValue }
    | some pv =>
      if strTruthy s.operation then
        let op := s.operation.getD ""
        let currentValue := jsOr0 pv
        let newValue := calculate M currentValue inputValue op
        { s with display := numToStr newValue, previousValue := some newValue }
      else s
  { s1 with waitingForOperand := true, operation := some nextOperation }

/-- `addToHistory`, local part: prepend to at most the first nine
existing entries.  The fire-and-forget persistence call it also makes
is modelled at the system layer (`equalsWithPersistence`) and by the
record each step emits. -/
def addToHistory (expression result : String) (s : EngineState) : EngineState :=
  { s with history := ⟨expression, result⟩ :: s.history.take 9 }

/-- `performEquals`. -/
def performEquals (M : JsMath) (s : EngineState) : EngineState × Option CalcRecord :=
  let inputValue := jsParseFloat s.display
  match s.previousValue with
  | some pv =>
    if strTruthy s.operation then
      let op := s.operation.getD ""
      let newValue := calculate M pv inputValue op
      let expression := strCat (strCat (strCat (strCat (numToStr pv) " ") op) " ")
        (numToStr inputValue)
      (addToHistory expression (numToStr newValue)
        { s with display := numToStr newValue, previousValue := none,
                 operation := none, waitingForOperand := true },
       some ⟨expression, numToStr newValue⟩)
    else (s, none)
  | none => (s, none)

/-- Degree-to-radian conversion applied before the trig functions:
`(value * Math.PI) / 180` in degree mode. -/
def toRadians (mode : AngleMode) (v : JSNum) : JSNum :=
  if mode = AngleMode.deg then jsDiv (jsMul v (.finite mathPI)) (.finite (Q.ofInt 180))
  else v

def angleSuffix (mode : AngleMode) : String :=
  if mode = AngleMode.deg then "°" else " rad"

/-- The `switch (op)` of `performScientificOperation`: the computed
result and expression string, `none` for the default (unknown op)
case.  The `!` case floors a finite operand and takes `factorial`; on a
non-finite operand the source recursion does not terminate (a stack
overflow in JavaScript), modelled as `NaN`. -/
def sciResult (M : JsMath) (op : String) (mode : AngleMode) (value : JSNum) :
    Option (JSNum × String) :=
  match op with
  | "sin" => some (M.sin (toRadians mode value),
      strCat (strCat (strCat "sin(" (numToStr value)) (angleSuffix mode)) ")")
  | "cos" => some (M.cos (toRadians mode value),
      strCat (strCat (strCat "cos(" (numToStr value)) (angleSuffix mode)) ")")
  | "tan" => some (M.tan (toRadians mode value),
      strCat (strCat (strCat "tan(" (numToStr value)) (angleSuffix mode)) ")")
  | "log" => some (M.log10 value, strCat (strCat "log(" (numToStr value)) ")")
  | "ln" => some (M.ln value, strCat (strCat "ln(" (numToStr value)) ")")
  | "sqrt" => some (M.sqrt value, strCat (strCat "√(" (numToStr value)) ")")
  | "x²" => some (jsMul value value, strCat (strCat "(" (numToStr value)) ")²")
  | "x³" => some (jsMul (jsMul value value) value,
      strCat (strCat "(" (numToStr value)) ")³")
  | "1/x" => some (jsDiv (.finite (Q.ofInt 1)) value,
      strCat (strCat "1/(" (numToStr value)) ")")
  | "!" =>
    some (match value with
          | .finite q => .finite (Q.ofInt (factorial (Q.floor q)))
          | _ => .nan,
      strCat (numToStr (jsFloor value)) "!")
  | "π" => some (.finite mathPI, "π")
  | "e" => some (.finite mathE, "e")
  | _ => none

/-- `performScientificOperation`. -/
def performScientificOperation (M : JsMath) (op : String) (s : EngineState) :
    EngineState × Option CalcRecord :=
  let value := jsParseFloat s.display
  match sciResult M op s.angleMode value with
  | none => (s, none)
  | some (result, expression) =>
    (addToHistory expression (numToStr result)
      { s with display := numToStr result, waitingForOperand := true },
     some ⟨expression, numToStr result⟩)

/-- `memoryStore`. -/
def memoryStore (s : EngineState) : EngineState :=
  { s with memory := jsParseFloat s.display }

/-- `memoryRecall`. -/
def memoryRecall (s : EngineState) : EngineState :=
  { s with display := numToStr s.memory, waitingForOperand := true }

/-- `memoryClear`. -/
def memoryClear (s : EngineState) : EngineState :=
  { s with memory := .finite ⟨0, 1⟩ }

/-- `memoryAdd`. -/
def memoryAdd (s : EngineState) : EngineState :=
  { s with memory := jsAdd s.memory (jsParseFloat s.display) }

/-- The DEG/RAD button: toggles the angle mode. -/
def toggleAngleMode (s : EngineState) : EngineState :=
  { s with angleMode := if s.angleMode = AngleMode.deg then AngleMode.rad
      else AngleMode.deg }

/-- The public engine operations as wired to the UI buttons: digits
`0`-`9`, decimal point, C, CE, backspace, `±`, the binary operator
buttons, `=`, the scientific-function buttons, the four memory keys and
the angle-mode toggle. -/
inductive CalcAction where
  | digit (d : Fin 10)
  | dec
  | clear
  | clearEntry
  | backspace
  | negate
  | binop (op : String)
  | equals
  | sci (op : String)
  | memStore
  | memRecall
  | memClear
  | memAdd
  | angleToggle

/-- One engine step: the next state and the `CalculationRecord` emitted
to the history store, when the operation completes a calculation. -/
def step (M : JsMath) (a : CalcAction) (s : EngineState) : EngineState × Option CalcRecord :=
  match a with
  | .digit d => (inputNumber ⟨[digitChar d.val]⟩ s, none)
  | .dec => (inputDecimal s, none)
  | .clear => (clear s, none)
  | .clearEntry => (clearEntry s, none)
  | .backspace => (backspace s, none)
  | .negate => (negate s, none)
  | .binop op => (performOperation M op s, none)
  | .equals => performEquals M s
  | .sci op => performScientificOperation M op s
  | .memStore => (memoryStore s, none)
  | .memRecall => (memoryRecall s, none)
  | .memClear => (memoryClear s, none)
  | .memAdd => (memoryAdd s, none)
  | .angleToggle => (toggleAngleMode s, none)

/-- Run a sequence of engine operations. -/
def runAs (M : JsMath) (acts : List CalcAction) (s : EngineState) : EngineState :=
  acts.foldl (fun t a => (step M a t).1) s

/-- Run a sequence of engine operations, also counting the emitted
calculation records. -/
def runEmit (M : JsMath) (acts : List CalcAction) (p : EngineState × Nat) : EngineState × Nat :=
  acts.foldl (fun p a =>
    let r := step M a p.1
    (r.1, p.2 + (if r.2.isSome then 1 else 0))) p

/-- A persisted row of the `calculations` table
(`convex/calculator.ts`): owner, expression, result.  Creation order is
the list order of the database. -/
structure CalcRow (U : Type) where
  userId : U
  expression : String
  result : String
deriving DecidableEq

inductive StoreError where
  | unauthorized
deriving DecidableEq

/-- `saveCalculation`: requires an authenticated user, then inserts a
new row (at the end: creation order). -/
def saveCalculation {U : Type} (auth : Option U) (db : List (CalcRow U))
    (expression result : String) : Except StoreError (List (CalcRow U)) :=
  match auth with
  | none => .error .unauthorized
  | some u => .ok (db ++ [⟨u, expression, result⟩])

/-- `getHistory`: empty for an unauthenticated caller, otherwise the
caller's rows, newest first, at most 20. -/
def getHistory {U : Type} [DecidableEq U] (auth : Option U) (db : List (CalcRow U)) :
    List (CalcRow U) :=
  match auth with
  | none => []
  | some u => ((db.filter (fun r => decide (r.userId = u))).reverse).take 20

/-- Fold a batch of `(expression, result)` pairs through
`saveCalculation` for an authenticated user. -/
def appendAll {U : Type} (u : U) (db : List (CalcRow U)) :
    List (String × String) → List (CalcRow U)
  | [] => db
  | (e, r) :: rest =>
    match saveCalculation (some u) db e r with
    | .ok db2 => appendAll u db2 rest
    | .error _ => db

/-- The combined equals-plus-persistence transition: `addToHistory`
awaits `saveCalculation` inside `try { } catch { }`, so a persistence
failure is swallowed and the engine state is unaffected by it. -/
def equalsWithPersistence {U : Type} (M : JsMath) (auth : Option U)
    (db : List (CalcRow U)) (s : EngineState) : EngineState × List (CalcRow U) :=
  match performEquals M s with
  | (s2, none) => (s2, db)
  | (s2, some r) =>
    match saveCalculation auth db r.expression r.result with
    | .ok db2 => (s2, db2)
    | .error _ => (s2, db)

/-- `[0-9]*(.[0-9]*)?` on character lists. -/
def digitsDot : List Char → Bool
  | [] => true
  | c :: t => (c.isDigit && digitsDot t) || (decide (c = '.') && t.all (fun d => d.isDigit))

/-- The exponent tail (what may follow the `e` of an exponent-notation
display): an optional sign, then digits with at most one decimal point,
any suffix of which may be missing (backspace truncation) or extended
(typed digits, one typed decimal point). -/
def expTail1 (l : List Char) : Bool :=
  digitsDot l || ((decide (l.headD ' ' = '+') || decide (l.headD ' ' = '-')) && digitsDot l.tail)

/-- The mantissa position after its decimal point: digits, optionally
followed by `e` and an exponent tail. -/
def mantDot : List Char → Bool
  | [] => true
  | c :: t => if c = 'e' then expTail1 t else (c.isDigit && mantDot t)

/-- A numeric display body: mantissa digits, at most one mantissa
decimal point, optionally `e` and an exponent tail; prefix-closed, so it
also covers every backspace truncation. -/
def mantExp : List Char → Bool
  | [] => true
  | c :: t =>
    if c = 'e' then expTail1 t
    else if c = '.' then mantDot t
    else (c.isDigit && mantExp t)

/-- An optionally `-`-prefixed `mantExp` body: every display form a
typed, computed (including exponent-notation), negated or backspaced
numeric value can take. -/
def numExp (l : List Char) : Bool :=
  mantExp l || (decide (l.headD ' ' = '-') && mantExp l.tail)

def nanTail2 (l : List Char) : Bool :=
  digitsDot l || (decide (l.headD ' ' = 'N') && digitsDot l.tail)

def nanTail1 (l : List Char) : Bool :=
  digitsDot l || (decide (l.headD ' ' = 'a') && nanTail2 l.tail)

/-- A nonempty prefix of `"NaN"` followed by a `digitsDot` tail: the
display forms reachable by backspacing a `NaN` display and typing
digits or a decimal point after it. -/
def nanClass (l : List Char) : Bool :=
  decide (l.headD ' ' = 'N') && nanTail1 l.tail

/-- A nonempty prefix of `"Infinity"` or `"-Infinity"`. -/
def infLike (l : List Char) : Bool :=
  prefixB l "Infinity".data || prefixB l "-Infinity".data

/-- The claim's display predicate: a syntactically valid decimal
numeral - at least one digit, at most one decimal point, an optional
leading minus - or the literal `"0"` (itself a valid numeral). -/
def validNumeral (s : String) : Bool :=
  let body := if s.data.headD ' ' = '-' then s.data.tail else s.data
  body.any (fun c => c.isDigit) && digitsDot body

/-- The display-shape invariant the engine actually maintains: the
display is nonempty and is an (optionally negated) numeric form - digits
with at most one mantissa decimal point, optionally an `e`-exponent
suffix with sign and digits, any tail truncatable by backspace and
extendable by typed digits and one decimal point - or a
backspace-truncated/digit-extended `NaN` form, or - only while
`waitingForOperand` is set - a prefix of `"Infinity"` or
`"-Infinity"`. -/
def displayInv (s : EngineState) : Prop :=
  s.display.data ≠ [] ∧
    (numExp s.display.data = true ∨ nanClass s.display.data = true ∨
      (s.waitingForOperand = true ∧ infLike s.display.data = true))

/-- The operator/operand pairing invariant: a pending operator implies
a staged previous value. -/
def pairedInv (s : EngineState) : Prop :=
  s.operation ≠ none → s.previousValue ≠ none

/-! ## Helper lemmas: character classes -/

theorem digitCharIsDigit (n : Nat) : (digitChar n).isDigit = true := by
  unfold digitChar
  split_ifs <;> decide

theorem digitsDotCons (c : Char) (t : List Char) :
    digitsDot (c :: t) =
      ((c.isDigit && digitsDot t) || (decide (c = '.') && t.all (fun d => d.isDigit))) := rfl

theorem allDropLast {p : Char → Bool} :
    ∀ l : List Char, l.all p = true → l.dropLast.all p = true := by
  intro l
  induction l with
  | nil => simp
  | cons c t ih =>
    cases t with
    | nil => simp
    | cons d u =>
      intro h
      rw [List.all_cons, Bool.and_eq_true] at h
      have hd := ih h.2
      simp only [List.dropLast_cons₂, List.all_cons, Bool.and_eq_true]
      exact ⟨h.1, hd⟩

theorem digitsDotOfAll : ∀ l : List Char, l.all Char.isDigit = true → digitsDot l = true := by
  intro l
  induction l with
  | nil => intro _; rfl
  | cons c t ih =>
    intro h
    rw [List.all_cons, Bool.and_eq_true] at h
    rw [digitsDotCons, Bool.or_eq_true, Bool.and_eq_true]
    exact Or.inl ⟨h.1, ih h.2⟩

theorem digitsDotAppendDigit (c : Char) (hc : c.isDigit = true) :
    ∀ l, digitsDot l = true → digitsDot (l ++ [c]) = true := by
  intro l
  induction l with
  | nil =>
    intro _
    rw [List.nil_append, digitsDotCons, Bool.or_eq_true, Bool.and_eq_true]
    exact Or.inl ⟨hc, rfl⟩
  | cons d t ih =>
    intro h
    rw [digitsDotCons, Bool.or_eq_true, Bool.and_eq_true, Bool.and_eq_true] at h
    rw [List.cons_append, digitsDotCons, Bool.or_eq_true, Bool.and_eq_true, Bool.and_eq_true]
    rcases h with ⟨hd, ht⟩ | ⟨hd, ht⟩
    · exact Or.inl ⟨hd, ih ht⟩
    · refine Or.inr ⟨hd, ?_⟩
      rw [List.all_append, Bool.and_eq_true]
      exact ⟨ht, by simp [hc]⟩

theorem hasDotCons (c : Char) (t : List Char) :
    hasDot (c :: t) = (decide (c = '.') || hasDot t) := by
  simp [hasDot]

theorem digitsDotAppendDot :
    ∀ l, digitsDot l = true → hasDot l = false → digitsDot (l ++ ['.']) = true := by
  intro l
  induction l with
  | nil => intro _ _; decide
  | cons d t ih =>
    intro h hnd
    rw [hasDotCons] at hnd
    simp only [Bool.or_eq_false_iff, decide_eq_false_iff_not] at hnd
    rw [digitsDotCons, Bool.or_eq_true, Bool.and_eq_true, Bool.and_eq_true] at h
    rw [List.cons_append, digitsDotCons, Bool.or_eq_true, Bool.and_eq_true]
    rcases h with ⟨hd, ht⟩ | ⟨hd, _⟩
    · exact Or.inl ⟨hd, ih ht hnd.2⟩
    · exact absurd (of_decide_eq_true hd) hnd.1

theorem digitsDotDropLast : ∀ l, digitsDot l = true → digitsDot l.dropLast = true := by
  intro l
  induction l with
  | nil => intro _; rfl
  | cons d t ih =>
    intro h
    cases t with
    | nil => rfl
    | cons e u =>
      rw [digitsDotCons, Bool.or_eq_true, Bool.and_eq_true, Bool.and_eq_true] at h
      simp only [List.dropLast_cons₂]
      rw [digitsDotCons, Bool.or_eq_true, Bool.and_eq_true, Bool.and_eq_true]
      rcases h with ⟨hd, ht⟩ | ⟨hd, ht⟩
      · exact Or.inl ⟨hd, ih ht⟩
      · exact Or.inr ⟨hd, allDropLast (e :: u) ht⟩

theorem digitsDotGlue (A B : List Char) (hA : A.all Char.isDigit = true)
    (hB : B.all Char.isDigit = true) : digitsDot (A ++ '.' :: B) = true := by
  induction A with
  | nil =>
    rw [List.nil_append, digitsDotCons, Bool.or_eq_true]
    refine Or.inr ?_
    rw [Bool.and_eq_true]
    exact ⟨by decide, hB⟩
  | cons c t ih =>
    rw [List.all_cons, Bool.and_eq_true] at hA
    rw [List.cons_append, digitsDotCons, Bool.or_eq_true, Bool.and_eq_true]
    exact Or.inl ⟨hA.1, ih hA.2⟩

theorem digitsDotHead (c : Char) (t : List Char) (h : digitsDot (c :: t) = true) :
    c.isDigit = true ∨ c = '.' := by
  rw [digitsDotCons, Bool.or_eq_true, Bool.and_eq_true, Bool.and_eq_true] at h
  rcases h with ⟨hd, _⟩ | ⟨hd, _⟩
  · exact Or.inl hd
  · exact Or.inr (of_decide_eq_true hd)

/-! ## Helper lemmas: the display classes -/

theorem numExpDef (l : List Char) :
    numExp l = (mantExp l || (decide (l.headD ' ' = '-') && mantExp l.tail)) := rfl

theorem expTail1Def (l : List Char) :
    expTail1 l = (digitsDot l ||
      ((decide (l.headD ' ' = '+') || decide (l.headD ' ' = '-')) && digitsDot l.tail)) := rfl

theorem mantDotCons (c : Char) (t : List Char) :
    mantDot (c :: t) = (if c = 'e' then expTail1 t else (c.isDigit && mantDot t)) := rfl

theorem mantExpCons (c : Char) (t : List Char) :
    mantExp (c :: t) =
      (if c = 'e' then expTail1 t
       else if c = '.' then mantDot t
       else (c.isDigit && mantExp t)) := rfl

theorem isDigitNotE {c : Char} (hc : c.isDigit = true) : ¬ c = 'e' := by
  intro h
  rw [h] at hc
  exact absurd hc (by decide)

theorem isDigitNotDot {c : Char} (hc : c.isDigit = true) : ¬ c = '.' := by
  intro h
  rw [h] at hc
  exact absurd hc (by decide)

theorem nanTail2Def (l : List Char) :
    nanTail2 l = (digitsDot l || (decide (l.headD ' ' = 'N') && digitsDot l.tail)) := rfl

theorem nanTail1Def (l : List Char) :
    nanTail1 l = (digitsDot l || (decide (l.headD ' ' = 'a') && nanTail2 l.tail)) := rfl

theorem nanClassDef (l : List Char) :
    nanClass l = (decide (l.headD ' ' = 'N') && nanTail1 l.tail) := rfl

theorem orTrueIntro {a b : Bool} (h : a = true ∨ b = true) : (a || b) = true := by
  rcases h with h | h <;> simp [h]

theorem orTrueElim {a b : Bool} (h : (a || b) = true) : a = true ∨ b = true := by
  rcases Bool.or_eq_true_iff.mp h with h | h
  · exact Or.inl h
  · exact Or.inr h

theorem andTrueIntro {a b : Bool} (h1 : a = true) (h2 : b = true) : (a && b) = true := by
  simp [h1, h2]

theorem andTrueElim {a b : Bool} (h : (a && b) = true) : a = true ∧ b = true := by
  simpa using h

theorem headDCons (c : Char) (t : List Char) (d : Char) : (c :: t).headD d = c := rfl

theorem expTail1AppendDigit (c : Char) (hc : c.isDigit = true) :
    ∀ l, expTail1 l = true → expTail1 (l ++ [c]) = true := by
  intro l h
  rcases orTrueElim ((expTail1Def l) ▸ h) with h | h
  · rw [expTail1Def]
    exact orTrueIntro (Or.inl (digitsDotAppendDigit c hc l h))
  · rcases andTrueElim h with ⟨h1, h2⟩
    cases l with
    | nil =>
      rw [List.nil_append, expTail1Def]
      exact orTrueIntro (Or.inl (digitsDotOfAll [c] (by simp [hc])))
    | cons d t =>
      rw [headDCons] at h1
      rw [List.cons_append, expTail1Def, headDCons]
      exact orTrueIntro (Or.inr (andTrueIntro h1 (digitsDotAppendDigit c hc t h2)))

theorem expTail1AppendDot :
    ∀ l, expTail1 l = true → hasDot l = false → expTail1 (l ++ ['.']) = true := by
  intro l h hd
  rcases orTrueElim ((expTail1Def l) ▸ h) with h | h
  · rw [expTail1Def]
    exact orTrueIntro (Or.inl (digitsDotAppendDot l h hd))
  · rcases andTrueElim h with ⟨h1, h2⟩
    cases l with
    | nil =>
      rw [List.nil_append, expTail1Def]
      exact orTrueIntro (Or.inl (by decide))
    | cons d t =>
      rw [headDCons] at h1
      rw [hasDotCons, Bool.or_eq_false_iff] at hd
      rw [List.cons_append, expTail1Def, headDCons]
      exact orTrueIntro (Or.inr (andTrueIntro h1 (digitsDotAppendDot t h2 hd.2)))

theorem expTail1DropLast : ∀ l, expTail1 l = true → expTail1 l.dropLast = true := by
  intro l h
  rcases orTrueElim ((expTail1Def l) ▸ h) with h | h
  · rw [expTail1Def]
    exact orTrueIntro (Or.inl (digitsDotDropLast l h))
  · rcases andTrueElim h with ⟨h1, h2⟩
    cases l with
    | nil => exact rfl
    | cons d t =>
      rw [headDCons] at h1
      cases t with
      | nil => exact rfl
      | cons e u =>
        rw [List.dropLast_cons₂, expTail1Def, headDCons]
        exact orTrueIntro (Or.inr (andTrueIntro h1 (digitsDotDropLast (e :: u) h2)))

theorem mantDotAppendDigit (c : Char) (hc : c.isDigit = true) :
    ∀ l, mantDot l = true → mantDot (l ++ [c]) = true := by
  intro l
  induction l with
  | nil =>
    intro _
    rw [List.nil_append, mantDotCons, if_neg (isDigitNotE hc)]
    exact andTrueIntro hc rfl
  | cons d t ih =>
    intro h
    rw [mantDotCons] at h
    rw [List.cons_append, mantDotCons]
    by_cases hd : d = 'e'
    · rw [if_pos hd] at h ⊢
      exact expTail1AppendDigit c hc t h
    · rw [if_neg hd] at h ⊢
      rcases andTrueElim h with ⟨h1, h2⟩
      exact andTrueIntro h1 (ih h2)

theorem mantDotDropLast : ∀ l, mantDot l = true → mantDot l.dropLast = true := by
  intro l
  induction l with
  | nil => intro _; rfl
  | cons d t ih =>
    intro h
    cases t with
    | nil => exact rfl
    | cons e u =>
      rw [mantDotCons] at h
      rw [List.dropLast_cons₂, mantDotCons]
      by_cases hd : d = 'e'
      · rw [if_pos hd] at h ⊢
        exact expTail1DropLast (e :: u) h
      · rw [if_neg hd] at h ⊢
        rcases andTrueElim h with ⟨h1, h2⟩
        exact andTrueIntro h1 (ih h2)

theorem mantExpAppendDigit (c : Char) (hc : c.isDigit = true) :
    ∀ l, mantExp l = true → mantExp (l ++ [c]) = true := by
  intro l
  induction l with
  | nil =>
    intro _
    rw [List.nil_append, mantExpCons, if_neg (isDigitNotE hc), if_neg (isDigitNotDot hc)]
    exact andTrueIntro hc rfl
  | cons d t ih =>
    intro h
    rw [mantExpCons] at h
    rw [List.cons_append, mantExpCons]
    by_cases hd : d = 'e'
    · rw [if_pos hd] at h ⊢
      exact expTail1AppendDigit c hc t h
    · rw [if_neg hd] at h ⊢
      by_cases hd2 : d = '.'
      · rw [if_pos hd2] at h ⊢
        exact mantDotAppendDigit c hc t h
      · rw [if_neg hd2] at h ⊢
        rcases andTrueElim h with ⟨h1, h2⟩
        exact andTrueIntro h1 (ih h2)

theorem mantExpAppendDot :
    ∀ l, mantExp l = true → hasDot l = false → mantExp (l ++ ['.']) = true := by
  intro l
  induction l with
  | nil =>
    intro _ _
    rw [List.nil_append, mantExpCons, if_neg (by decide : ¬ ('.' = 'e')), if_pos rfl]
    rfl
  | cons d t ih =>
    intro h hnd
    rw [hasDotCons, Bool.or_eq_false_iff] at hnd
    rcases hnd with ⟨hnd1, hnd2⟩
    rw [mantExpCons] at h
    rw [List.cons_append, mantExpCons]
    by_cases hd : d = 'e'
    · rw [if_pos hd] at h ⊢
      exact expTail1AppendDot t h hnd2
    · rw [if_neg hd] at h ⊢
      by_cases hd2 : d = '.'
      · rw [decide_eq_false_iff_not] at hnd1
        exact absurd hd2 hnd1
      · rw [if_neg hd2] at h ⊢
        rcases andTrueElim h with ⟨h1, h2⟩
        exact andTrueIntro h1 (ih h2 hnd2)

theorem mantExpDropLast : ∀ l, mantExp l = true → mantExp l.dropLast = true := by
  intro l
  induction l with
  | nil => intro _; rfl
  | cons d t ih =>
    intro h
    cases t with
    | nil => exact rfl
    | cons e u =>
      rw [mantExpCons] at h
      rw [List.dropLast_cons₂, mantExpCons]
      by_cases hd : d = 'e'
      · rw [if_pos hd] at h ⊢
        exact expTail1DropLast (e :: u) h
      · rw [if_neg hd] at h ⊢
        by_cases hd2 : d = '.'
        · rw [if_pos hd2] at h ⊢
          exact mantDotDropLast (e :: u) h
        · rw [if_neg hd2] at h ⊢
          rcases andTrueElim h with ⟨h1, h2⟩
          exact andTrueIntro h1 (ih h2)

theorem numExpAppendDigit (c : Char) (hc : c.isDigit = true) :
    ∀ l, numExp l = true → numExp (l ++ [c]) = true := by
  intro l h
  rcases orTrueElim ((numExpDef l) ▸ h) with h | h
  · rw [numExpDef]
    exact orTrueIntro (Or.inl (mantExpAppendDigit c hc l h))
  · rcases andTrueElim h with ⟨h1, h2⟩
    cases l with
    | nil => exact absurd (of_decide_eq_true h1) (by decide)
    | cons d t =>
      rw [headDCons] at h1
      rw [List.cons_append, numExpDef, headDCons]
      exact orTrueIntro (Or.inr (andTrueIntro h1 (mantExpAppendDigit c hc t h2)))

theorem numExpAppendDot :
    ∀ l, numExp l = true → hasDot l = false → numExp (l ++ ['.']) = true := by
  intro l h hd
  rcases orTrueElim ((numExpDef l) ▸ h) with h | h
  · rw [numExpDef]
    exact orTrueIntro (Or.inl (mantExpAppendDot l h hd))
  · rcases andTrueElim h with ⟨h1, h2⟩
    cases l with
    | nil => exact absurd (of_decide_eq_true h1) (by decide)
    | cons d t =>
      rw [headDCons] at h1
      rw [hasDotCons, Bool.or_eq_false_iff] at hd
      rw [List.cons_append, numExpDef, headDCons]
      exact orTrueIntro (Or.inr (andTrueIntro h1 (mantExpAppendDot t h2 hd.2)))

theorem numExpDropLast : ∀ l, numExp l = true → numExp l.dropLast = true := by
  intro l h
  rcases orTrueElim ((numExpDef l) ▸ h) with h | h
  · rw [numExpDef]
    exact orTrueIntro (Or.inl (mantExpDropLast l h))
  · rcases andTrueElim h with ⟨h1, h2⟩
    cases l with
    | nil => exact absurd (of_decide_eq_true h1) (by decide)
    | cons d t =>
      rw [headDCons] at h1
      cases t with
      | nil => exact rfl
      | cons e u =>
        rw [List.dropLast_cons₂, numExpDef, headDCons]
        exact orTrueIntro (Or.inr (andTrueIntro h1 (mantExpDropLast (e :: u) h2)))

theorem nanTail2AppendDigit (c : Char) (hc : c.isDigit = true) :
    ∀ l, nanTail2 l = true → nanTail2 (l ++ [c]) = true := by
  intro l h
  rcases orTrueElim ((nanTail2Def l) ▸ h) with h | h
  · rw [nanTail2Def]
    exact orTrueIntro (Or.inl (digitsDotAppendDigit c hc l h))
  · rcases andTrueElim h with ⟨h1, h2⟩
    cases l with
    | nil => exact absurd (of_decide_eq_true h1) (by decide)
    | cons d t =>
      rw [headDCons] at h1
      rw [List.cons_append, nanTail2Def, headDCons]
      exact orTrueIntro (Or.inr (andTrueIntro h1 (digitsDotAppendDigit c hc t h2)))

theorem nanTail1AppendDigit (c : Char) (hc : c.isDigit = true) :
    ∀ l, nanTail1 l = true → nanTail1 (l ++ [c]) = true := by
  intro l h
  rcases orTrueElim ((nanTail1Def l) ▸ h) with h | h
  · rw [nanTail1Def]
    exact orTrueIntro (Or.inl (digitsDotAppendDigit c hc l h))
  · rcases andTrueElim h with ⟨h1, h2⟩
    cases l with
    | nil => exact absurd (of_decide_eq_true h1) (by decide)
    | cons d t =>
      rw [headDCons] at h1
      rw [List.cons_append, nanTail1Def, headDCons]
      exact orTrueIntro (Or.inr (andTrueIntro h1 (nanTail2AppendDigit c hc t h2)))

theorem nanClassAppendDigit (c : Char) (hc : c.isDigit = true) :
    ∀ l, nanClass l = true → nanClass (l ++ [c]) = true := by
  intro l h
  rcases andTrueElim ((nanClassDef l) ▸ h) with ⟨h1, h2⟩
  cases l with
  | nil => exact absurd (of_decide_eq_true h1) (by decide)
  | cons d t =>
    rw [headDCons] at h1
    rw [List.cons_append, nanClassDef, headDCons]
    exact andTrueIntro h1 (nanTail1AppendDigit c hc t h2)

theorem nanTail2AppendDot :
    ∀ l, nanTail2 l = true → hasDot l = false → nanTail2 (l ++ ['.']) = true := by
  intro l h hd
  rcases orTrueElim ((nanTail2Def l) ▸ h) with h | h
  · rw [nanTail2Def]
    exact orTrueIntro (Or.inl (digitsDotAppendDot l h hd))
  · rcases andTrueElim h with ⟨h1, h2⟩
    cases l with
    | nil => exact absurd (of_decide_eq_true h1) (by decide)
    | cons d t =>
      rw [headDCons] at h1
      rw [hasDotCons, Bool.or_eq_false_iff] at hd
      rw [List.cons_append, nanTail2Def, headDCons]
      exact orTrueIntro (Or.inr (andTrueIntro h1 (digitsDotAppendDot t h2 hd.2)))

theorem nanTail1AppendDot :
    ∀ l, nanTail1 l = true → hasDot l = false → nanTail1 (l ++ ['.']) = true := by
  intro l h hd
  rcases orTrueElim ((nanTail1Def l) ▸ h) with h | h
  · rw [nanTail1Def]
    exact orTrueIntro (Or.inl (digitsDotAppendDot l h hd))
  · rcases andTrueElim h with ⟨h1, h2⟩
    cases l with
    | nil => exact absurd (of_decide_eq_true h1) (by decide)
    | cons d t =>
      rw [headDCons] at h1
      rw [hasDotCons, Bool.or_eq_false_iff] at hd
      rw [List.cons_append, nanTail1Def, headDCons]
      exact orTrueIntro (Or.inr (andTrueIntro h1 (nanTail2AppendDot t h2 hd.2)))

theorem nanClassAppendDot :
    ∀ l, nanClass l = true → hasDot l = false → nanClass (l ++ ['.']) = true := by
  intro l h hd
  rcases andTrueElim ((nanClassDef l) ▸ h) with ⟨h1, h2⟩
  cases l with
  | nil => exact absurd (of_decide_eq_true h1) (by decide)
  | cons d t =>
    rw [headDCons] at h1
    rw [hasDotCons, Bool.or_eq_false_iff] at hd
    rw [List.cons_append, nanClassDef, headDCons]
    exact andTrueIntro h1 (nanTail1AppendDot t h2 hd.2)

theorem nanTail2DropLast : ∀ l, nanTail2 l = true → nanTail2 l.dropLast = true := by
  intro l h
  rcases orTrueElim ((nanTail2Def l) ▸ h) with h | h
  · rw [nanTail2Def]
    exact orTrueIntro (Or.inl (digitsDotDropLast l h))
  · rcases andTrueElim h with ⟨h1, h2⟩
    cases l with
    | nil => exact absurd (of_decide_eq_true h1) (by decide)
    | cons d t =>
      rw [headDCons] at h1
      cases t with
      | nil => exact rfl
      | cons e u =>
        rw [List.dropLast_cons₂, nanTail2Def, headDCons]
        exact orTrueIntro (Or.inr (andTrueIntro h1 (digitsDotDropLast (e :: u) h2)))

theorem nanTail1DropLast : ∀ l, nanTail1 l = true → nanTail1 l.dropLast = true := by
  intro l h
  rcases orTrueElim ((nanTail1Def l) ▸ h) with h | h
  · rw [nanTail1Def]
    exact orTrueIntro (Or.inl (digitsDotDropLast l h))
  · rcases andTrueElim h with ⟨h1, h2⟩
    cases l with
    | nil => exact absurd (of_decide_eq_true h1) (by decide)
    | cons d t =>
      rw [headDCons] at h1
      cases t with
      | nil => exact rfl
      | cons e u =>
        rw [List.dropLast_cons₂, nanTail1Def, headDCons]
        exact orTrueIntro (Or.inr (andTrueIntro h1 (nanTail2DropLast (e :: u) h2)))

theorem nanClassDropLast :
    ∀ l, nanClass l = true → nanClass l.dropLast = true ∨ l.dropLast = [] := by
  intro l h
  rcases andTrueElim ((nanClassDef l) ▸ h) with ⟨h1, h2⟩
  cases l with
  | nil => exact absurd (of_decide_eq_true h1) (by decide)
  | cons d t =>
    rw [headDCons] at h1
    cases t with
    | nil => exact Or.inr rfl
    | cons e u =>
      refine Or.inl ?_
      rw [List.dropLast_cons₂, nanClassDef, headDCons]
      exact andTrueIntro h1 (nanTail1DropLast (e :: u) h2)

theorem prefixBDropLast : ∀ (l X : List Char), prefixB l X = true → prefixB l.dropLast X = true := by
  intro l
  induction l with
  | nil => intro X _; rfl
  | cons a t ih =>
    intro X h
    cases X with
    | nil => exact absurd h (by simp [prefixB])
    | cons b u =>
      rcases andTrueElim h with ⟨h1, h2⟩
      cases t with
      | nil => rfl
      | cons e w =>
        rw [List.dropLast_cons₂]
        exact andTrueIntro h1 (ih u h2)

theorem infLikeDropLast : ∀ l, infLike l = true → infLike l.dropLast = true := by
  intro l h
  rcases orTrueElim h with h | h
  · exact orTrueIntro (Or.inl (prefixBDropLast l _ h))
  · exact orTrueIntro (Or.inr (prefixBDropLast l _ h))

/-! ## Helper lemmas: printer and parser shapes -/

theorem natToCharsAuxNe (fuel n : Nat) : natToCharsAux fuel n ≠ [] := by
  cases fuel with
  | zero => simp [natToCharsAux]
  | succ f =>
    unfold natToCharsAux
    split
    · simp
    · simp

theorem natToCharsAuxAll (fuel : Nat) :
    ∀ n, (natToCharsAux fuel n).all Char.isDigit = true := by
  induction fuel with
  | zero => intro n; simp [natToCharsAux, digitCharIsDigit]
  | succ f ih =>
    intro n
    unfold natToCharsAux
    split
    · simp [digitCharIsDigit]
    · rw [List.all_append]
      exact andTrueIntro (ih (n / 10)) (by simp [digitCharIsDigit])

theorem fracDigitsAll (fuel : Nat) :
    ∀ x, (fracDigits fuel x).all Char.isDigit = true := by
  induction fuel with
  | zero => intro x; rfl
  | succ f ih =>
    intro x
    unfold fracDigits
    split
    · rfl
    · rw [List.all_cons]
      exact andTrueIntro (digitCharIsDigit _) (ih _)

theorem mantDotOfAll : ∀ l : List Char, l.all Char.isDigit = true → mantDot l = true := by
  intro l
  induction l with
  | nil => intro _; rfl
  | cons c t ih =>
    intro h
    rw [List.all_cons, Bool.and_eq_true] at h
    rw [mantDotCons, if_neg (isDigitNotE h.1)]
    exact andTrueIntro h.1 (ih h.2)

theorem mantExpOfDigitsThen (A R : List Char) (hA : A.all Char.isDigit = true)
    (hR : mantExp R = true) : mantExp (A ++ R) = true := by
  induction A with
  | nil => simpa using hR
  | cons c t ih =>
    rw [List.all_cons, Bool.and_eq_true] at hA
    rw [List.cons_append, mantExpCons, if_neg (isDigitNotE hA.1), if_neg (isDigitNotDot hA.1)]
    exact andTrueIntro hA.1 (ih hA.2)

theorem mantDotGlueE (F R : List Char) (hF : F.all Char.isDigit = true)
    (hR : expTail1 R = true) : mantDot (F ++ 'e' :: R) = true := by
  induction F with
  | nil =>
    rw [List.nil_append, mantDotCons, if_pos rfl]
    exact hR
  | cons c t ih =>
    rw [List.all_cons, Bool.and_eq_true] at hF
    rw [List.cons_append, mantDotCons, if_neg (isDigitNotE hF.1)]
    exact andTrueIntro hF.1 (ih hF.2)

theorem expTail1Sign (sgn : Char) (hs : sgn = '+' ∨ sgn = '-') (E : List Char)
    (hE : E.all Char.isDigit = true) : expTail1 (sgn :: E) = true := by
  rw [expTail1Def, headDCons]
  refine orTrueIntro (Or.inr (andTrueIntro ?_ ?_))
  · rcases hs with h | h <;> rw [h] <;> decide
  · exact digitsDotOfAll E hE

theorem mantExpTailE (fd : List Char) (hfd : fd.all Char.isDigit = true)
    (R : List Char) (hR : expTail1 R = true) :
    mantExp ((if fd.isEmpty then [] else '.' :: fd) ++ 'e' :: R) = true := by
  split
  · rw [List.nil_append, mantExpCons, if_pos rfl]
    exact hR
  · rw [List.cons_append, mantExpCons, if_neg (by decide : ¬ ('.' = 'e')), if_pos rfl]
    exact mantDotGlueE fd R hfd hR

theorem numExpBuild (c : Prop) [Decidable c] (A : List Char) (hA : A ≠ [])
    (hAd : mantExp A = true) :
    numExp ((if c then ['-'] else []) ++ A) = true ∧
      ((if c then ['-'] else []) ++ A) ≠ [] := by
  by_cases h : c
  · constructor
    · rw [if_pos h, List.singleton_append, numExpDef, headDCons]
      exact orTrueIntro (Or.inr (andTrueIntro (by decide) hAd))
    · rw [if_pos h]
      simp
  · constructor
    · rw [if_neg h, List.nil_append, numExpDef]
      exact orTrueIntro (Or.inl hAd)
    · rw [if_neg h, List.nil_append]
      exact hA

theorem expCharsShape (num den : Nat) :
    mantExp (expChars num den) = true ∧ expChars num den ≠ [] := by
  unfold expChars
  split
  · constructor
    · rw [mantExpCons, if_neg (isDigitNotE (digitCharIsDigit _)),
        if_neg (isDigitNotDot (digitCharIsDigit _))]
      exact andTrueIntro (digitCharIsDigit _)
        (mantExpTailE _ (fracDigitsAll _ _) _
          (expTail1Sign '+' (Or.inl rfl) _ (natToCharsAuxAll _ _)))
    · simp
  · constructor
    · rw [mantExpCons, if_neg (isDigitNotE (digitCharIsDigit _)),
        if_neg (isDigitNotDot (digitCharIsDigit _))]
      exact andTrueIntro (digitCharIsDigit _)
        (mantExpTailE _ (fracDigitsAll _ _) _
          (expTail1Sign '-' (Or.inr rfl) _ (natToCharsAuxAll _ _)))
    · simp

theorem numToStrFiniteShape (q : Q) :
    numExp (numToStr (.finite q)).data = true ∧ (numToStr (.finite q)).data ≠ [] := by
  have hsh : numToStr (.finite q) =
      if 0 < q.num.natAbs ∧
          (q.den * 1000000000000000000000 ≤ q.num.natAbs ∨ q.num.natAbs * 1000000 < q.den) then
        ⟨(if q.num < 0 then ['-'] else []) ++ expChars q.num.natAbs q.den⟩
      else
        ⟨(if q.num < 0 then ['-'] else []) ++ natToChars (q.num.natAbs / q.den) ++
          (if (fracDigits 20 ⟨Int.ofNat (q.num.natAbs % q.den), q.den⟩).isEmpty then []
           else '.' :: fracDigits 20 ⟨Int.ofNat (q.num.natAbs % q.den), q.den⟩)⟩ := rfl
  rw [hsh]
  split
  · rcases expCharsShape q.num.natAbs q.den with ⟨h1, h2⟩
    exact numExpBuild (q.num < 0) (expChars q.num.natAbs q.den) h2 h1
  · have hip1 : natToChars (q.num.natAbs / q.den) ≠ [] := natToCharsAuxNe _ _
    have hbody : mantExp (natToChars (q.num.natAbs / q.den) ++
        (if (fracDigits 20 ⟨Int.ofNat (q.num.natAbs % q.den), q.den⟩).isEmpty then []
         else '.' :: fracDigits 20 ⟨Int.ofNat (q.num.natAbs % q.den), q.den⟩)) = true := by
      refine mantExpOfDigitsThen _ _ (natToCharsAuxAll _ _) ?_
      split
      · rfl
      · rw [mantExpCons, if_neg (by decide : ¬ ('.' = 'e')), if_pos rfl]
        exact mantDotOfAll _ (fracDigitsAll _ _)
    have hbne : (natToChars (q.num.natAbs / q.den) ++
        (if (fracDigits 20 ⟨Int.ofNat (q.num.natAbs % q.den), q.den⟩).isEmpty then []
         else '.' :: fracDigits 20 ⟨Int.ofNat (q.num.natAbs % q.den), q.den⟩)) ≠ [] := by
      simp only [ne_eq, List.append_eq_nil]
      intro h
      exact hip1 h.1
    have hb := numExpBuild (q.num < 0) (natToChars (q.num.natAbs / q.den) ++
        (if (fracDigits 20 ⟨Int.ofNat (q.num.natAbs % q.den), q.den⟩).isEmpty then []
         else '.' :: fracDigits 20 ⟨Int.ofNat (q.num.natAbs % q.den), q.den⟩)) hbne hbody
    rw [← List.append_assoc] at hb
    exact hb

theorem nanClassNaN : nanClass "NaN".data = true := by decide

theorem numToStrShape (v : JSNum) :
    (numToStr v).data ≠ [] ∧
      (numExp (numToStr v).data = true ∨ nanClass (numToStr v).data = true ∨
        infLike (numToStr v).data = true) := by
  cases v with
  | finite q =>
    rcases numToStrFiniteShape q with ⟨h1, h2⟩
    exact ⟨h2, Or.inl h1⟩
  | nan => exact ⟨by decide, Or.inr (Or.inl (by decide))⟩
  | inf => exact ⟨by decide, Or.inr (Or.inr (by decide))⟩
  | ninf => exact ⟨by decide, Or.inr (Or.inr (by decide))⟩

theorem headDNotI (l : List Char) (h : ¬ l.headD ' ' = 'I') :
    prefixB "Infinity".data l = false := by
  cases l with
  | nil => rfl
  | cons c t =>
    rw [headDCons] at h
    show (decide ('I' = c) && prefixB "nfinity".data t) = false
    have h2 : decide ('I' = c) = false := by
      simp only [decide_eq_false_iff_not]
      intro he
      exact h he.symm
    rw [h2, Bool.false_and]

theorem digitsDotHeadNotI (l : List Char) (h : digitsDot l = true) :
    ¬ l.headD ' ' = 'I' := by
  cases l with
  | nil => decide
  | cons c t =>
    rw [headDCons]
    rcases digitsDotHead c t h with hc | hc
    · intro he
      rw [he] at hc
      exact absurd hc (by decide)
    · intro he
      rw [he] at hc
      exact absurd hc (by decide)

theorem mantExpHead (c : Char) (t : List Char) (h : mantExp (c :: t) = true) :
    c.isDigit = true ∨ c = '.' ∨ c = 'e' := by
  rw [mantExpCons] at h
  by_cases h1 : c = 'e'
  · exact Or.inr (Or.inr h1)
  · rw [if_neg h1] at h
    by_cases h2 : c = '.'
    · exact Or.inr (Or.inl h2)
    · rw [if_neg h2] at h
      exact Or.inl (andTrueElim h).1

theorem mantExpHeadNotSign (c : Char) (t : List Char) (h : mantExp (c :: t) = true) :
    ¬ c = '-' ∧ ¬ c = '+' := by
  rcases mantExpHead c t h with hc | hc | hc
  · constructor
    · intro he; rw [he] at hc; exact absurd hc (by decide)
    · intro he; rw [he] at hc; exact absurd hc (by decide)
  · rw [hc]; exact ⟨by decide, by decide⟩
  · rw [hc]; exact ⟨by decide, by decide⟩

theorem mantExpHeadNotI (l : List Char) (h : mantExp l = true) : ¬ l.headD ' ' = 'I' := by
  cases l with
  | nil => decide
  | cons c t =>
    rw [headDCons]
    rcases mantExpHead c t h with hc | hc | hc
    · intro he; rw [he] at hc; exact absurd hc (by decide)
    · rw [hc]; decide
    · rw [hc]; decide

theorem parseUnsignedShape (l : List Char) (h : prefixB "Infinity".data l = false) :
    parseUnsignedChars l = .nan ∨ ∃ q, parseUnsignedChars l = .finite q := by
  unfold parseUnsignedChars
  rw [h]
  simp only [Bool.false_eq_true, if_false]
  repeat' split
  all_goals first | exact Or.inl rfl | exact Or.inr ⟨_, rfl⟩

theorem jsNegShape (v : JSNum) (h : v = .nan ∨ ∃ q, v = .finite q) :
    jsNeg v = .nan ∨ ∃ q, jsNeg v = .finite q := by
  rcases h with h | ⟨q, h⟩
  · rw [h]; exact Or.inl rfl
  · rw [h]; exact Or.inr ⟨_, rfl⟩

theorem parseClassShape (s : String)
    (h : numExp s.data = true ∨ nanClass s.data = true) :
    jsParseFloat s = .nan ∨ ∃ q, jsParseFloat s = .finite q := by
  unfold jsParseFloat
  by_cases h1 : s.data.headD ' ' = '-'
  · rw [if_pos h1]
    rcases h with h | h
    · rcases orTrueElim ((numExpDef s.data) ▸ h) with hdd | hmr
      · rcases hd : s.data with _ | ⟨c, t⟩
        · rw [hd] at h1
          exact absurd h1 (by decide)
        · rw [hd] at h1 hdd
          rw [headDCons] at h1
          exact absurd h1 (mantExpHeadNotSign c t hdd).1
      · rcases andTrueElim hmr with ⟨_, h3⟩
        exact jsNegShape _ (parseUnsignedShape s.data.tail
          (headDNotI s.data.tail (mantExpHeadNotI s.data.tail h3)))
    · rcases andTrueElim ((nanClassDef s.data) ▸ h) with ⟨h2, _⟩
      have h4 := of_decide_eq_true h2
      rw [h1] at h4
      exact absurd h4 (by decide)
  · rw [if_neg h1]
    by_cases h2 : s.data.headD ' ' = '+'
    · exfalso
      rcases h with h | h
      · rcases orTrueElim ((numExpDef s.data) ▸ h) with hdd | hmr
        · rcases hd : s.data with _ | ⟨c, t⟩
          · rw [hd] at h2
            exact absurd h2 (by decide)
          · rw [hd] at h2 hdd
            rw [headDCons] at h2
            exact absurd h2 (mantExpHeadNotSign c t hdd).2
        · rcases andTrueElim hmr with ⟨h3, _⟩
          exact h1 (of_decide_eq_true h3)
      · rcases andTrueElim ((nanClassDef s.data) ▸ h) with ⟨h3, _⟩
        have h4 := of_decide_eq_true h3
        rw [h2] at h4
        exact absurd h4 (by decide)
    · rw [if_neg h2]
      refine parseUnsignedShape s.data ?_
      rcases h with h | h
      · rcases orTrueElim ((numExpDef s.data) ▸ h) with hdd | hmr
        · exact headDNotI s.data (mantExpHeadNotI s.data hdd)
        · rcases andTrueElim hmr with ⟨h3, _⟩
          exact absurd (of_decide_eq_true h3) h1
      · rcases andTrueElim ((nanClassDef s.data) ▸ h) with ⟨h3, _⟩
        refine headDNotI s.data ?_
        have h4 := of_decide_eq_true h3
        rw [h4]
        decide

/-! ## Characterizations of the branchy engine operations -/

theorem performOperationStage (M : JsMath) (op : String) (s : EngineState)
    (hpv : s.previousValue = none) :
    performOperation M op s =
      { s with previousValue := some (jsParseFloat s.display),
               waitingForOperand := true, operation := some op } := by
  unfold performOperation
  rw [hpv]

theorem performOperationChain (M : JsMath) (op : String) (s : EngineState) (pv : JSNum)
    (hpv : s.previousValue = some pv) (ht : strTruthy s.operation = true) :
    performOperation M op s =
      { s with display := numToStr (calculate M (jsOr0 pv) (jsParseFloat s.display)
                 (s.operation.getD "")),
               previousValue := some (calculate M (jsOr0 pv) (jsParseFloat s.display)
                 (s.operation.getD "")),
               waitingForOperand := true, operation := some op } := by
  unfold performOperation
  rw [hpv]
  dsimp only
  rw [if_pos ht]

theorem performOperationStale (M : JsMath) (op : String) (s : EngineState) (pv : JSNum)
    (hpv : s.previousValue = some pv) (ht : strTruthy s.operation = false) :
    performOperation M op s =
      { s with waitingForOperand := true, operation := some op } := by
  unfold performOperation
  rw [hpv]
  dsimp only
  rw [if_neg (by rw [ht]; simp), hpv]

theorem performEqualsRun (M : JsMath) (s : EngineState) (pv : JSNum)
    (hpv : s.previousValue = some pv) (ht : strTruthy s.operation = true) :
    performEquals M s =
      ({ s with display := numToStr (calculate M pv (jsParseFloat s.display)
                  (s.operation.getD "")),
                previousValue := none, operation := none, waitingForOperand := true,
                history := ⟨strCat (strCat (strCat (strCat (numToStr pv) " ")
                    (s.operation.getD "")) " ") (numToStr (jsParseFloat s.display)),
                  numToStr (calculate M pv (jsParseFloat s.display) (s.operation.getD ""))⟩ ::
                  s.history.take 9 },
       some ⟨strCat (strCat (strCat (strCat (numToStr pv) " ")
               (s.operation.getD "")) " ") (numToStr (jsParseFloat s.display)),
             numToStr (calculate M pv (jsParseFloat s.display) (s.operation.getD ""))⟩) := by
  unfold performEquals
  rw [hpv]
  dsimp only
  rw [if_pos ht]
  rfl

theorem performEqualsNoOp (M : JsMath) (s : EngineState)
    (h : s.previousValue = none ∨ strTruthy s.operation = false) :
    performEquals M s = (s, none) := by
  unfold performEquals
  rcases h with h | h
  · rw [h]
  · rcases hpv : s.previousValue with _ | pv
    · rfl
    · dsimp only
      rw [if_neg (by rw [h]; simp)]

theorem performSciSome (M : JsMath) (op : String) (s : EngineState) (r : JSNum) (e : String)
    (hr : sciResult M op s.angleMode (jsParseFloat s.display) = some (r, e)) :
    performScientificOperation M op s =
      ({ s with display := numToStr r, waitingForOperand := true,
                history := ⟨e, numToStr r⟩ :: s.history.take 9 },
       some ⟨e, numToStr r⟩) := by
  unfold performScientificOperation
  dsimp only
  rw [hr]
  rfl

theorem performSciNone (M : JsMath) (op : String) (s : EngineState)
    (hr : sciResult M op s.angleMode (jsParseFloat s.display) = none) :
    performScientificOperation M op s = (s, none) := by
  unfold performScientificOperation
  dsimp only
  rw [hr]

/-! ## Invariant preservation -/

theorem displayInvOf (s t : EngineState) (hd : t.display = s.display)
    (hw : t.waitingForOperand = s.waitingForOperand) (h : displayInv s) : displayInv t := by
  unfold displayInv at h ⊢
  rw [hd, hw]
  exact h

theorem displayInvStr (t : EngineState) (v : JSNum) (hd : t.display = numToStr v)
    (hw : t.waitingForOperand = true) : displayInv t := by
  unfold displayInv
  rw [hd, hw]
  rcases numToStrShape v with ⟨hn, hs⟩
  refine ⟨hn, ?_⟩
  rcases hs with h | h | h
  · exact Or.inl h
  · exact Or.inr (Or.inl h)
  · exact Or.inr (Or.inr ⟨rfl, h⟩)

theorem displayInvWaiting (s t : EngineState) (hd : t.display = s.display)
    (hw : t.waitingForOperand = true) (h : displayInv s) : displayInv t := by
  unfold displayInv at h ⊢
  rw [hd, hw]
  rcases h with ⟨hn, hs⟩
  refine ⟨hn, ?_⟩
  rcases hs with h | h | ⟨_, h⟩
  · exact Or.inl h
  · exact Or.inr (Or.inl h)
  · exact Or.inr (Or.inr ⟨rfl, h⟩)

theorem displayInvNumeral (t : EngineState) (d : String) (hd : t.display = d)
    (h1 : d.data ≠ []) (h2 : numExp d.data = true) : displayInv t := by
  unfold displayInv
  rw [hd]
  exact ⟨h1, Or.inl h2⟩

theorem displayInvFinite (t : EngineState) (q : Q)
    (hd : t.display = numToStr (.finite q)) : displayInv t := by
  unfold displayInv
  rw [hd]
  rcases numToStrFiniteShape q with ⟨h1, h2⟩
  exact ⟨h2, Or.inl h1⟩

theorem displayInvNaN (t : EngineState) (hd : t.display = numToStr JSNum.nan) :
    displayInv t := by
  unfold displayInv
  rw [hd]
  exact ⟨by decide, Or.inr (Or.inl (by decide))⟩

theorem singleDigitClass (c : Char) (hc : c.isDigit = true) : numExp [c] = true := by
  rw [numExpDef]
  refine orTrueIntro (Or.inl ?_)
  rw [mantExpCons, if_neg (isDigitNotE hc), if_neg (isDigitNotDot hc)]
  exact andTrueIntro hc rfl

theorem inputNumberInv (c : Char) (hc : c.isDigit = true) (s : EngineState)
    (h : displayInv s) : displayInv (inputNumber ⟨[c]⟩ s) := by
  unfold inputNumber
  split
  · exact displayInvNumeral _ ⟨[c]⟩ rfl (by simp) (singleDigitClass c hc)
  · rename_i hw
    rcases h with ⟨hne, hcls⟩
    split
    · exact displayInvNumeral _ ⟨[c]⟩ rfl (by simp) (singleDigitClass c hc)
    · refine ⟨by simp [strCat], ?_⟩
      rcases hcls with h1 | h1 | ⟨hw2, _⟩
      · exact Or.inl (numExpAppendDigit c hc _ h1)
      · exact Or.inr (Or.inl (nanClassAppendDigit c hc _ h1))
      · exact absurd hw2 hw

theorem inputDecimalInv (s : EngineState) (h : displayInv s) :
    displayInv (inputDecimal s) := by
  unfold inputDecimal
  split
  · exact displayInvNumeral _ "0." rfl (by decide) (by decide)
  · rename_i hw
    split
    · rename_i hnd
      rcases h with ⟨hne, hcls⟩
      refine ⟨by simp, ?_⟩
      rcases hcls with h1 | h1 | ⟨hw2, _⟩
      · exact Or.inl (numExpAppendDot _ h1 hnd)
      · exact Or.inr (Or.inl (nanClassAppendDot _ h1 hnd))
      · exact absurd hw2 hw
    · exact h

theorem backspaceInv (s : EngineState) (h : displayInv s) : displayInv (backspace s) := by
  unfold backspace
  split
  · exact displayInvNumeral _ "0" rfl (by decide) (by decide)
  · rename_i hne2
    rcases h with ⟨hne, hcls⟩
    refine ⟨?_, ?_⟩
    · show s.display.data.dropLast ≠ []
      intro hh
      exact hne2 (by simp [List.isEmpty_iff, hh])
    · rcases hcls with h1 | h1 | ⟨hw, h1⟩
      · exact Or.inl (numExpDropLast _ h1)
      · rcases nanClassDropLast _ h1 with h2 | h2
        · exact Or.inr (Or.inl h2)
        · exact absurd (by simp [List.isEmpty_iff, h2]) hne2
      · exact Or.inr (Or.inr ⟨hw, infLikeDropLast _ h1⟩)

theorem negateInv (s : EngineState) (h : displayInv s) : displayInv (negate s) := by
  unfold negate
  rcases h with ⟨hne, hcls⟩
  have hshape : ∀ _ : numExp s.display.data = true ∨ nanClass s.display.data = true,
      displayInv { s with display := numToStr (jsNeg (jsParseFloat s.display)) } := by
    intro hcl
    rcases jsNegShape _ (parseClassShape s.display hcl) with h2 | ⟨q, h2⟩
    · exact displayInvNaN _ (congrArg numToStr h2)
    · exact displayInvFinite _ q (congrArg numToStr h2)
  rcases hcls with h1 | h1 | ⟨hw, h1⟩
  · exact hshape (Or.inl h1)
  · exact hshape (Or.inr h1)
  · rcases numToStrShape (jsNeg (jsParseFloat s.display)) with ⟨hn, hs⟩
    refine ⟨hn, ?_⟩
    rcases hs with h2 | h2 | h2
    · exact Or.inl h2
    · exact Or.inr (Or.inl h2)
    · exact Or.inr (Or.inr ⟨hw, h2⟩)

theorem performOperationInv (M : JsMath) (op : String) (s : EngineState)
    (h : displayInv s) : displayInv (performOperation M op s) := by
  rcases hpv : s.previousValue with _ | pv
  · rw [performOperationStage M op s hpv]
    exact displayInvWaiting s _ rfl rfl h
  · rcases ht : strTruthy s.operation with _ | _
    · rw [performOperationStale M op s pv hpv ht]
      exact displayInvWaiting s _ rfl rfl h
    · rw [performOperationChain M op s pv hpv ht]
      exact displayInvStr _ _ rfl rfl

theorem performEqualsInv (M : JsMath) (s : EngineState) (h : displayInv s) :
    displayInv (performEquals M s).1 := by
  rcases hpv : s.previousValue with _ | pv
  · rw [performEqualsNoOp M s (Or.inl hpv)]
    exact h
  · rcases ht : strTruthy s.operation with _ | _
    · rw [performEqualsNoOp M s (Or.inr ht)]
      exact h
    · rw [performEqualsRun M s pv hpv ht]
      exact displayInvStr _ _ rfl rfl

theorem performSciInv (M : JsMath) (op : String) (s : EngineState) (h : displayInv s) :
    displayInv (performScientificOperation M op s).1 := by
  rcases hr : sciResult M op s.angleMode (jsParseFloat s.display) with _ | ⟨r, e⟩
  · rw [performSciNone M op s hr]
    exact h
  · rw [performSciSome M op s r e hr]
    exact displayInvStr _ _ rfl rfl

theorem stepDisplayInv (M : JsMath) (a : CalcAction) (s : EngineState)
    (h : displayInv s) : displayInv (step M a s).1 := by
  cases a with
  | digit d => exact inputNumberInv (digitChar d.val) (digitCharIsDigit _) s h
  | dec => exact inputDecimalInv s h
  | clear => exact displayInvNumeral _ "0" rfl (by decide) (by decide)
  | clearEntry => exact displayInvNumeral _ "0" rfl (by decide) (by decide)
  | backspace => exact backspaceInv s h
  | negate => exact negateInv s h
  | binop op => exact performOperationInv M op s h
  | equals => exact performEqualsInv M s h
  | sci op => exact performSciInv M op s h
  | memStore => exact displayInvOf s _ rfl rfl h
  | memRecall => exact displayInvStr _ s.memory rfl rfl
  | memClear => exact displayInvOf s _ rfl rfl h
  | memAdd => exact displayInvOf s _ rfl rfl h
  | angleToggle => exact displayInvOf s _ rfl rfl h

theorem runAsCons (M : JsMath) (a : CalcAction) (acts : List CalcAction) (s : EngineState) :
    runAs M (a :: acts) s = runAs M acts (step M a s).1 := rfl

theorem runAsDisplayInv (M : JsMath) (acts : List CalcAction) :
    ∀ s, displayInv s → displayInv (runAs M acts s) := by
  induction acts with
  | nil => intro s h; exact h
  | cons a acts ih =>
    intro s h
    rw [runAsCons]
    exact ih _ (stepDisplayInv M a s h)

theorem initDisplayInv : displayInv initState := ⟨by decide, Or.inl (by decide)⟩

theorem pairedInvOf (s t : EngineState) (ho : t.operation = s.operation)
    (hp : t.previousValue = s.previousValue) (h : pairedInv s) : pairedInv t := by
  unfold pairedInv at h ⊢
  rw [ho, hp]
  exact h

theorem pairedInvSomePv (t : EngineState) (v : JSNum) (hp : t.previousValue = some v) :
    pairedInv t := by
  intro _
  rw [hp]
  exact Option.some_ne_none v

theorem pairedInvNoOp (t : EngineState) (ho : t.operation = none) : pairedInv t := by
  intro h2
  exact absurd ho h2

theorem stepPairedInv (M : JsMath) (a : CalcAction) (s : EngineState)
    (h : pairedInv s) : pairedInv (step M a s).1 := by
  cases a with
  | digit d =>
    show pairedInv (inputNumber _ s)
    unfold inputNumber
    split
    · exact pairedInvOf s _ rfl rfl h
    · exact pairedInvOf s _ rfl rfl h
  | dec =>
    show pairedInv (inputDecimal s)
    unfold inputDecimal
    split
    · exact pairedInvOf s _ rfl rfl h
    · split
      · exact pairedInvOf s _ rfl rfl h
      · exact h
  | clear => exact pairedInvNoOp _ rfl
  | clearEntry => exact pairedInvOf s _ rfl rfl h
  | backspace =>
    show pairedInv (backspace s)
    unfold backspace
    exact pairedInvOf s _ rfl rfl h
  | negate => exact pairedInvOf s _ rfl rfl h
  | binop op =>
    show pairedInv (performOperation M op s)
    rcases hpv : s.previousValue with _ | pv
    · rw [performOperationStage M op s hpv]
      exact pairedInvSomePv _ _ rfl
    · rcases ht : strTruthy s.operation with _ | _
      · rw [performOperationStale M op s pv hpv ht]
        exact pairedInvSomePv _ pv hpv
      · rw [performOperationChain M op s pv hpv ht]
        exact pairedInvSomePv _ _ rfl
  | equals =>
    show pairedInv (performEquals M s).1
    rcases hpv : s.previousValue with _ | pv
    · rw [performEqualsNoOp M s (Or.inl hpv)]
      exact h
    · rcases ht : strTruthy s.operation with _ | _
      · rw [performEqualsNoOp M s (Or.inr ht)]
        exact h
      · rw [performEqualsRun M s pv hpv ht]
        exact pairedInvNoOp _ rfl
  | sci op =>
    show pairedInv (performScientificOperation M op s).1
    rcases hr : sciResult M op s.angleMode (jsParseFloat s.display) with _ | ⟨r, e⟩
    · rw [performSciNone M op s hr]
      exact h
    · rw [performSciSome M op s r e hr]
      exact pairedInvOf s _ rfl rfl h
  | memStore => exact pairedInvOf s _ rfl rfl h
  | memRecall => exact pairedInvOf s _ rfl rfl h
  | memClear => exact pairedInvOf s _ rfl rfl h
  | memAdd => exact pairedInvOf s _ rfl rfl h
  | angleToggle => exact pairedInvOf s _ rfl rfl h

theorem runAsPairedInv (M : JsMath) (acts : List CalcAction) :
    ∀ s, pairedInv s → pairedInv (runAs M acts s) := by
  induction acts with
  | nil => intro s h; exact h
  | cons a acts ih =>
    intro s h
    rw [runAsCons]
    exact ih _ (stepPairedInv M a s h)

theorem initPairedInv : pairedInv initState := pairedInvNoOp _ rfl

/-! ## History bookkeeping -/

theorem stepHistory (M : JsMath) (a : CalcAction) (s : EngineState) :
    (step M a s).1.history =
      ((step M a s).2.elim s.history (fun r => r :: s.history.take 9)) := by
  cases a with
  | digit d =>
    show (inputNumber _ s).history = s.history
    unfold inputNumber
    split <;> rfl
  | dec =>
    show (inputDecimal s).history = s.history
    unfold inputDecimal
    split
    · rfl
    · split <;> rfl
  | clear => rfl
  | clearEntry => rfl
  | backspace =>
    show (backspace s).history = s.history
    unfold backspace
    rfl
  | negate => rfl
  | binop op =>
    show (performOperation M op s).history = s.history
    rcases hpv : s.previousValue with _ | pv
    · rw [performOperationStage M op s hpv]
    · rcases ht : strTruthy s.operation with _ | _
      · rw [performOperationStale M op s pv hpv ht]
      · rw [performOperationChain M op s pv hpv ht]
  | equals =>
    show (performEquals M s).1.history =
      ((performEquals M s).2.elim s.history (fun r => r :: s.history.take 9))
    rcases hpv : s.previousValue with _ | pv
    · rw [performEqualsNoOp M s (Or.inl hpv)]
      rfl
    · rcases ht : strTruthy s.operation with _ | _
      · rw [performEqualsNoOp M s (Or.inr ht)]
        rfl
      · rw [performEqualsRun M s pv hpv ht]
        rfl
  | sci op =>
    show (performScientificOperation M op s).1.history =
      ((performScientificOperation M op s).2.elim s.history (fun r => r :: s.history.take 9))
    rcases hr : sciResult M op s.angleMode (jsParseFloat s.display) with _ | ⟨r, e⟩
    · rw [performSciNone M op s hr]
      rfl
    · rw [performSciSome M op s r e hr]
      rfl
  | memStore => rfl
  | memRecall => rfl
  | memClear => rfl
  | memAdd => rfl
  | angleToggle => rfl

theorem runEmitCons (M : JsMath) (a : CalcAction) (acts : List CalcAction)
    (s : EngineState) (n : Nat) :
    runEmit M (a :: acts) (s, n) =
      runEmit M acts ((step M a s).1, n + (if (step M a s).2.isSome then 1 else 0)) := rfl

theorem runEmitLen (M : JsMath) (acts : List CalcAction) :
    ∀ (s : EngineState) (n : Nat), s.history.length = min n 10 →
      (runEmit M acts (s, n)).1.history.length = min (runEmit M acts (s, n)).2 10 := by
  induction acts with
  | nil => intro s n h; exact h
  | cons a acts ih =>
    intro s n h
    rw [runEmitCons]
    apply ih
    have hh := stepHistory M a s
    rcases h2 : (step M a s).2 with _ | r
    · rw [h2] at hh
      simp only [Option.elim_none] at hh
      rw [hh]
      simpa using h
    · rw [h2] at hh
      simp only [Option.elim_some] at hh
      rw [hh]
      simp only [Option.isSome_some, if_pos, List.length_cons, List.length_take, h]
      omega

/-! ## Store lemmas -/

theorem appendAllEq {U : Type} (u : U) :
    ∀ (items : List (String × String)) (db : List (CalcRow U)),
      appendAll u db items = db ++ items.map (fun p => CalcRow.mk u p.1 p.2) := by
  intro items
  induction items with
  | nil => intro db; simp [appendAll]
  | cons p rest ih =>
    intro db
    rcases p with ⟨e, r⟩
    show appendAll u (db ++ [⟨u, e, r⟩]) rest = _
    rw [ih]
    simp

theorem getHistoryLenLe {U : Type} [DecidableEq U] (auth : Option U)
    (db : List (CalcRow U)) : (getHistory auth db).length ≤ 20 := by
  rcases auth with _ | u
  · simp [getHistory]
  · show (((db.filter (fun r => decide (r.userId = u))).reverse).take 20).length ≤ 20
    rw [List.length_take]
    omega

/-! ## Factorial lemmas -/

theorem factorialNat (k : Nat) : factorial (k : Int) = (Nat.factorial k : Int) := by
  induction k with
  | zero => rw [factorial]; norm_num
  | succ k ih =>
    rcases Nat.eq_zero_or_pos k with h | h
    · subst h; rw [factorial]; norm_num
    · rw [factorial]
      have h1 : ¬ (((k + 1 : Nat) : Int) < 0) := by push_cast; omega
      have h2 : ¬ (((k + 1 : Nat) : Int) = 0 ∨ ((k + 1 : Nat) : Int) = 1) := by
        push_cast; omega
      rw [if_neg h1, if_neg h2]
      have h3 : ((k + 1 : Nat) : Int) - 1 = (k : Int) := by push_cast; ring
      rw [h3, ih, Nat.factorial_succ]
      push_cast
      ring

theorem factorialNeg (n : Int) (h : n < 0) : factorial n = 0 := by
  rw [factorial, if_pos h]

/-! ## Claim theorems -/

/-- C1: on every engine state with a staged `previousValue` and a pending
operator, `equals()` sets the display to the stringified
`calculate(previousValue, parse(display), op)`, clears `previousValue`
and the pending operator, sets `waitingForOperand`, and emits exactly
one record whose expression is `previousValue ⟨space⟩ op ⟨space⟩ currentValue`
and whose result is the stringified new value; when `previousValue` or
the pending operator is absent it leaves the state unchanged and emits
nothing. -/
theorem equals_spec (M : JsMath) (s : EngineState) :
    (∀ (pv : JSNum) (op : String), s.previousValue = some pv → s.operation = some op →
      op ∈ (["+", "-", "×", "÷", "^", "mod"] : List String) →
      performEquals M s =
        ({ s with display := numToStr (calculate M pv (jsParseFloat s.display) op),
                  previousValue := none, operation := none, waitingForOperand := true,
                  history := ⟨strCat (strCat (strCat (strCat (numToStr pv) " ") op) " ")
                      (numToStr (jsParseFloat s.display)),
                    numToStr (calculate M pv (jsParseFloat s.display) op)⟩ ::
                    s.history.take 9 },
         some ⟨strCat (strCat (strCat (strCat (numToStr pv) " ") op) " ")
             (numToStr (jsParseFloat s.display)),
           numToStr (calculate M pv (jsParseFloat s.display) op)⟩)) ∧
    ((s.previousValue = none ∨ s.operation = none) → performEquals M s = (s, none)) := by
  constructor
  · intro pv op hpv hop hmem
    have hne : op ≠ "" := by
      simp only [List.mem_cons, List.mem_singleton, List.not_mem_nil, or_false] at hmem
      rcases hmem with rfl | rfl | rfl | rfl | rfl | rfl <;> decide
    have ht : strTruthy s.operation = true := by
      rw [hop]
      simp [strTruthy, hne]
    rw [performEqualsRun M s pv hpv ht, hop]
    simp only [Option.getD_some]
  · intro h
    rcases h with h | h
    · exact performEqualsNoOp M s (Or.inl h)
    · refine performEqualsNoOp M s (Or.inr ?_)
      rw [h]
      rfl

/-- C1 witness: `equals_spec` applied at a state staging `7 +` over
display `"3"`, and at the initial state (no-op branch). -/
theorem equals_spec_witness :
    performEquals anyJsMath
        ⟨"3", some (.finite ⟨7, 1⟩), some "+", true, .finite ⟨0, 1⟩, [], AngleMode.deg⟩ =
      ({ (⟨"3", some (.finite ⟨7, 1⟩), some "+", true, .finite ⟨0, 1⟩, [], AngleMode.deg⟩ :
            EngineState) with
            display := numToStr (calculate anyJsMath (.finite ⟨7, 1⟩) (jsParseFloat "3") "+"),
            previousValue := none, operation := none, waitingForOperand := true,
            history := ⟨strCat (strCat (strCat (strCat (numToStr (JSNum.finite ⟨7, 1⟩)) " ") "+") " ")
                (numToStr (jsParseFloat "3")),
              numToStr (calculate anyJsMath (.finite ⟨7, 1⟩) (jsParseFloat "3") "+")⟩ ::
              ([] : List CalcRecord).take 9 },
       some ⟨strCat (strCat (strCat (strCat (numToStr (JSNum.finite ⟨7, 1⟩)) " ") "+") " ")
           (numToStr (jsParseFloat "3")),
         numToStr (calculate anyJsMath (.finite ⟨7, 1⟩) (jsParseFloat "3") "+")⟩) ∧
    performEquals anyJsMath initState = (initState, none) :=
  ⟨(equals_spec anyJsMath _).1 (.finite ⟨7, 1⟩) "+" rfl rfl (by decide),
   (equals_spec anyJsMath initState).2 (Or.inl rfl)⟩

/-- C2 counterexample: at a state with staged `previousValue = NaN` and
pending `+`, pressing `×` yields display `"3"` (the falsy-coalesced
`previousValue || 0` evaluates `0 + 3`), not the `"NaN"` that evaluating
the pending operator against the staged value itself would give. -/
theorem setOperator_chain_cex :
    (performOperation anyJsMath "×"
        ⟨"3", some JSNum.nan, some "+", true, .finite ⟨0, 1⟩, [], AngleMode.deg⟩).display = "3" ∧
    numToStr (calculate anyJsMath JSNum.nan (jsParseFloat "3") "+") = "NaN" ∧
    ("3" : String) ≠ "NaN" := by decide

/-- C2 (amended): with a staged value and a nonempty pending operator,
`setOperator(op)` evaluates the pending operator against the staged
value coalesced through `v || 0` (a staged `NaN` is replaced by `0`)
and the parsed display, replaces display and `previousValue` with that
result, then stages `op` with `waitingForOperand` set; and the key
sequence `7 + 3 × 2 =` ends with display `"20"`. -/
theorem setOperator_chain_spec (M : JsMath) :
    (∀ (s : EngineState) (pv : JSNum) (op0 op : String),
      s.previousValue = some pv → s.operation = some op0 → op0 ≠ "" →
      performOperation M op s =
        { s with display := numToStr (calculate M (jsOr0 pv) (jsParseFloat s.display) op0),
                 previousValue := some (calculate M (jsOr0 pv) (jsParseFloat s.display) op0),
                 waitingForOperand := true, operation := some op }) ∧
    (runAs M [.digit 7, .binop "+", .digit 3, .binop "×", .digit 2, .equals]
        initState).display = "20" := by
  constructor
  · intro s pv op0 op hpv hop0 hne
    have ht : strTruthy s.operation = true := by
      rw [hop0]
      simp [strTruthy, hne]
    rw [performOperationChain M op s pv hpv ht, hop0]
    simp only [Option.getD_some]
  · have s1 : (step M (.digit 7) initState).1 =
        ⟨"7", none, none, false, .finite ⟨0, 1⟩, [], AngleMode.deg⟩ := rfl
    have s2 : (step M (.binop "+")
          ⟨"7", none, none, false, .finite ⟨0, 1⟩, [], AngleMode.deg⟩).1 =
        ⟨"7", some (.finite ⟨7, 1⟩), some "+", true, .finite ⟨0, 1⟩, [], AngleMode.deg⟩ := rfl
    have s3 : (step M (.digit 3)
          ⟨"7", some (.finite ⟨7, 1⟩), some "+", true, .finite ⟨0, 1⟩, [], AngleMode.deg⟩).1 =
        ⟨"3", some (.finite ⟨7, 1⟩), some "+", false, .finite ⟨0, 1⟩, [], AngleMode.deg⟩ := rfl
    have s4 : (step M (.binop "×")
          ⟨"3", some (.finite ⟨7, 1⟩), some "+", false, .finite ⟨0, 1⟩, [], AngleMode.deg⟩).1 =
        ⟨"10", some (.finite ⟨10, 1⟩), some "×", true, .finite ⟨0, 1⟩, [], AngleMode.deg⟩ := rfl
    have s5 : (step M (.digit 2)
          ⟨"10", some (.finite ⟨10, 1⟩), some "×", true, .finite ⟨0, 1⟩, [], AngleMode.deg⟩).1 =
        ⟨"2", some (.finite ⟨10, 1⟩), some "×", false, .finite ⟨0, 1⟩, [], AngleMode.deg⟩ := rfl
    have s6 : (step M .equals
          ⟨"2", some (.finite ⟨10, 1⟩), some "×", false, .finite ⟨0, 1⟩, [], AngleMode.deg⟩).1 =
        ⟨"20", none, none, true, .finite ⟨0, 1⟩, [⟨"10 × 2", "20"⟩], AngleMode.deg⟩ := rfl
    rw [runAsCons, s1, runAsCons, s2, runAsCons, s3, runAsCons, s4, runAsCons, s5,
      runAsCons, s6]
    rfl

/-- C2 witness: `setOperator_chain_spec` applied at the state staging
`7 +` over display `"3"` with next operator `×`. -/
theorem setOperator_chain_witness :
    performOperation anyJsMath "×"
        ⟨"3", some (.finite ⟨7, 1⟩), some "+", true, .finite ⟨0, 1⟩, [], AngleMode.deg⟩ =
      { (⟨"3", some (.finite ⟨7, 1⟩), some "+", true, .finite ⟨0, 1⟩, [], AngleMode.deg⟩ :
            EngineState) with
            display := numToStr (calculate anyJsMath (jsOr0 (.finite ⟨7, 1⟩))
              (jsParseFloat "3") "+"),
            previousValue := some (calculate anyJsMath (jsOr0 (.finite ⟨7, 1⟩))
              (jsParseFloat "3") "+"),
            waitingForOperand := true, operation := some "×" } :=
  (setOperator_chain_spec anyJsMath).1 _ (.finite ⟨7, 1⟩) "+" "×" rfl rfl (by decide)

/-- C3: `calculate(x, y, ÷)` returns exactly `0` whenever the divisor is
the number `0` - not `Infinity`, not `NaN` - and the exact quotient
`jsDiv x y` whenever the divisor is not `0`. -/
theorem calculate_divide_spec (M : JsMath) :
    (∀ x y : JSNum, jsIsZero y = true → calculate M x y "÷" = .finite ⟨0, 1⟩) ∧
    (∀ x y : JSNum, jsIsZero y = false → calculate M x y "÷" = jsDiv x y) := by
  constructor
  · intro x y h
    show (if jsIsZero y = false then jsDiv x y else .finite ⟨0, 1⟩) = .finite ⟨0, 1⟩
    rw [if_neg (by rw [h]; simp)]
  · intro x y h
    show (if jsIsZero y = false then jsDiv x y else .finite ⟨0, 1⟩) = jsDiv x y
    rw [if_pos h]

/-- C3 witness: `calculate_divide_spec` at `NaN ÷ 0` (which is `0`, not
`NaN`) and at `1 ÷ 2`. -/
theorem calculate_divide_witness :
    calculate anyJsMath JSNum.nan (.finite ⟨0, 1⟩) "÷" = .finite ⟨0, 1⟩ ∧
    calculate anyJsMath (.finite ⟨1, 1⟩) (.finite ⟨2, 1⟩) "÷" =
      jsDiv (.finite ⟨1, 1⟩) (.finite ⟨2, 1⟩) :=
  ⟨(calculate_divide_spec anyJsMath).1 JSNum.nan _ (by decide),
   (calculate_divide_spec anyJsMath).2 _ _ (by decide)⟩

/-- C4: every engine operation preserves the pairing invariant - a
pending operator implies a staged `previousValue` - and the invariant
holds in every state reachable from the initial state. -/
theorem operator_operand_invariant (M : JsMath) :
    (∀ (a : CalcAction) (s : EngineState), pairedInv s → pairedInv (step M a s).1) ∧
    (∀ acts : List CalcAction, pairedInv (runAs M acts initState)) :=
  ⟨fun a s h => stepPairedInv M a s h,
   fun acts => runAsPairedInv M acts initState initPairedInv⟩

/-- C4 witness: `operator_operand_invariant` after pressing `+` from the
initial state, and for one `equals` step. -/
theorem operator_operand_invariant_witness :
    pairedInv (runAs anyJsMath [.binop "+"] initState) ∧
    pairedInv (step anyJsMath .equals initState).1 :=
  ⟨(operator_operand_invariant anyJsMath).2 [.binop "+"],
   (operator_operand_invariant anyJsMath).1 .equals initState (by intro h; exact absurd rfl h)⟩

/-- Sanity check of the embedded `Number::toString`: values outside
`[1e-6, 1e21)` in magnitude render in JavaScript exponent notation, so
`±` on the typed display `0.0000001` yields `"-1e-7"`, and squaring
`1e11` yields `"1e+22"`. -/
theorem numToStr_exponent_sanity :
    (runAs anyJsMath [.digit 0, .dec, .digit 0, .digit 0, .digit 0, .digit 0,
        .digit 0, .digit 0, .digit 1, .negate] initState).display = "-1e-7" ∧
    numToStr (jsMul (.finite ⟨100000000000, 1⟩) (.finite ⟨100000000000, 1⟩)) =
      "1e+22" := by decide

/-- C5 counterexample: the reachable key sequence `5 ± ⌫` leaves the
display equal to `"-"`, which is not a syntactically valid decimal
numeral and not the literal `"0"`. -/
theorem display_numeral_cex :
    (runAs anyJsMath [.digit 5, .negate, .backspace] initState).display = "-" ∧
    validNumeral "-" = false ∧ ("-" : String) ≠ "0" := by decide

/-- C5 (amended): in every reachable state the display is a nonempty
string that is an optionally `-`-prefixed mantissa - a digit string with
at most one decimal point (possibly with no digit, e.g. `"-"` or `"0."`,
produced by backspace and decimal entry) - optionally followed by an
exponent suffix `e` with an optional sign and such a dotted digit string
after it (JavaScript exponent notation such as `"-1e-7"` or `"1e+22"`,
possibly truncated by backspace or extended by digit and decimal keys);
or a backspace-truncated prefix of `"NaN"` possibly extended with digits
and a decimal point; or - only while `waitingForOperand` is set - a
nonempty prefix of `"Infinity"` or `"-Infinity"`. -/
theorem display_numeral_invariant (M : JsMath) (acts : List CalcAction) :
    displayInv (runAs M acts initState) :=
  runAsDisplayInv M acts initState initDisplayInv

/-- C6: for an owner whose store holds exactly the appended batch (at
most 20 records, appended in order through `saveCalculation`),
`getHistory` returns exactly that batch newest-first; and `getHistory`
never returns more than 20 records. -/
theorem listRecent_roundtrip :
    (∀ (u : Nat) (db0 : List (CalcRow Nat)) (items : List (String × String)),
      db0.filter (fun r => decide (r.userId = u)) = [] →
      items.length ≤ 20 →
      getHistory (some u) (appendAll u db0 items) =
        (items.map (fun p => CalcRow.mk u p.1 p.2)).reverse) ∧
    (∀ (auth : Option Nat) (db : List (CalcRow Nat)), (getHistory auth db).length ≤ 20) := by
  constructor
  · intro u db0 items hempty hlen
    rw [appendAllEq]
    show ((((db0 ++ items.map (fun p => CalcRow.mk u p.1 p.2)).filter
        (fun r => decide (r.userId = u))).reverse).take 20) = _
    rw [List.filter_append, hempty, List.nil_append]
    have hf : (items.map (fun p => CalcRow.mk u p.1 p.2)).filter
        (fun r => decide (r.userId = u)) = items.map (fun p => CalcRow.mk u p.1 p.2) := by
      apply List.filter_eq_self.mpr
      intro r hr
      rcases List.mem_map.mp hr with ⟨p, _, rfl⟩
      simp
    rw [hf]
    apply List.take_of_length_le
    rw [List.length_reverse, List.length_map]
    exact hlen
  · intro auth db
    exact getHistoryLenLe auth db

/-- C6 witness: `listRecent_roundtrip` for owner `0`, an empty starting
store and two appended records. -/
theorem listRecent_roundtrip_witness :
    getHistory (some 0) (appendAll 0 ([] : List (CalcRow Nat))
        [("1 + 1", "2"), ("2 × 3", "6")]) =
      ([("1 + 1", "2"), ("2 × 3", "6")].map
        (fun p => CalcRow.mk (0 : Nat) p.1 p.2)).reverse ∧
    (getHistory (none : Option Nat) []).length ≤ 20 :=
  ⟨listRecent_roundtrip.1 0 [] [("1 + 1", "2"), ("2 × 3", "6")] rfl (by decide),
   listRecent_roundtrip.2 none []⟩

/-- C7: an unauthenticated `saveCalculation` fails with `Unauthorized`
and an unauthenticated `getHistory` returns the empty list rather than
an error; an authenticated `saveCalculation` inserts the new record
as-is - no validation or deduplication of expression/result - and the
combined equals-plus-persistence transition under a failed append
leaves the engine state exactly what the pure engine transition
produces and the store unchanged. -/
theorem store_auth_spec :
    (∀ (db : List (CalcRow Nat)) (e r : String),
      saveCalculation (none : Option Nat) db e r = .error .unauthorized) ∧
    (∀ db : List (CalcRow Nat), getHistory (none : Option Nat) db = []) ∧
    (∀ (u : Nat) (db : List (CalcRow Nat)) (e r : String),
      saveCalculation (some u) db e r = .ok (db ++ [⟨u, e, r⟩])) ∧
    (∀ (M : JsMath) (db : List (CalcRow Nat)) (s : EngineState),
      equalsWithPersistence M (none : Option Nat) db s = ((performEquals M s).1, db)) := by
  refine ⟨fun _ _ _ => rfl, fun _ => rfl, fun _ _ _ _ => rfl, ?_⟩
  intro M db s
  unfold equalsWithPersistence
  rcases h : performEquals M s with ⟨s2, _ | r⟩
  · simp only [h]
  · simp only [h]
    rfl

/-- C8: the source `factorial` computes the integer factorial:
`factorial 5 = 120`, `factorial 0 = factorial 1 = 1`, `factorial n = 0`
for every negative `n`, `factorial n = (n.toNat)!` for every `n ≥ 0`
(so the recursion terminates with a well-defined value on every
integer), and the `!` engine operation with a finite display value `V`
sets the display to the stringified `factorial ⌊V⌋`. -/
theorem factorial_spec :
    factorial 5 = 120 ∧ factorial 0 = 1 ∧ factorial 1 = 1 ∧
    (∀ n : Int, n < 0 → factorial n = 0) ∧
    (∀ n : Int, 0 ≤ n → factorial n = (Nat.factorial n.toNat : Int)) ∧
    (∀ (M : JsMath) (s : EngineState) (q : Q), jsParseFloat s.display = .finite q →
      ((performScientificOperation M "!" s).1).display =
        numToStr (.finite (Q.ofInt (factorial (Q.floor q))))) := by
  refine ⟨?_, ?_, ?_, fun n h => factorialNeg n h, ?_, ?_⟩
  · have h := factorialNat 5
    norm_num [Nat.factorial] at h
    exact h
  · have h := factorialNat 0
    norm_num [Nat.factorial] at h
    exact h
  · have h := factorialNat 1
    norm_num [Nat.factorial] at h
    exact h
  · intro n h
    have h2 := factorialNat n.toNat
    rw [Int.toNat_of_nonneg h] at h2
    exact h2
  · intro M s q h
    have hr : sciResult M "!" s.angleMode (jsParseFloat s.display) =
        some (.finite (Q.ofInt (factorial (Q.floor q))),
          strCat (numToStr (jsFloor (jsParseFloat s.display))) "!") := by
      rw [h]
      rfl
    rw [performSciSome M "!" s _ _ hr]

/-- C8 witness: `factorial_spec` at `factorial (-3) = 0`, `factorial 3`,
and the `!` operation on display `"5"`. -/
theorem factorial_spec_witness :
    factorial (-3) = 0 ∧
    factorial 3 = (Nat.factorial (Int.toNat 3) : Int) ∧
    ((performScientificOperation anyJsMath "!"
        ⟨"5", none, none, false, .finite ⟨0, 1⟩, [], AngleMode.deg⟩).1).display =
      numToStr (.finite (Q.ofInt (factorial (Q.floor ⟨5, 1⟩)))) :=
  ⟨(factorial_spec).2.2.2.1 (-3) (by decide),
   (factorial_spec).2.2.2.2.1 3 (by decide),
   (factorial_spec).2.2.2.2.2 anyJsMath _ ⟨5, 1⟩ (by decide)⟩

/-- C9 counterexample: storing `10`, entering `5`, then pressing `M+`
twice leaves `memory = 20`, not the claimed `15`. -/
theorem memoryAdd_twice_cex :
    (runAs anyJsMath [.digit 1, .digit 0, .memStore, .clearEntry, .digit 5,
        .memAdd, .memAdd] initState).memory = .finite ⟨20, 1⟩ ∧
    JSNum.finite ⟨20, 1⟩ ≠ JSNum.finite ⟨15, 1⟩ := by decide

/-- C9 (amended): after storing `10` and entering `5`, one `memoryAdd()`
yields `memory = 15` and a second `memoryAdd()` yields `memory = 20`
(each call adds the current display value again). -/
theorem memoryAdd_twice_amended :
    (runAs anyJsMath [.digit 1, .digit 0, .memStore, .clearEntry, .digit 5,
        .memAdd] initState).memory = .finite ⟨15, 1⟩ ∧
    (runAs anyJsMath [.digit 1, .digit 0, .memStore, .clearEntry, .digit 5,
        .memAdd, .memAdd] initState).memory = .finite ⟨20, 1⟩ := by decide

/-- C10: over every sequence of engine operations the local in-memory
history holds exactly `min(completed calculations, 10)` entries - each
completed calculation prepends its entry to at most the first nine
existing ones - while the persisted store retains every appended record
and `getHistory` returns at most 20. -/
theorem local_history_bound (M : JsMath) (acts : List CalcAction) :
    ((runEmit M acts (initState, 0)).1).history.length =
      min (runEmit M acts (initState, 0)).2 10 ∧
    (∀ (u : Nat) (db : List (CalcRow Nat)) (items : List (String × String)),
      (appendAll u db items).length = db.length + items.length) ∧
    (∀ (auth : Option Nat) (db : List (CalcRow Nat)), (getHistory auth db).length ≤ 20) := by
  refine ⟨?_, ?_, fun auth db => getHistoryLenLe auth db⟩
  · exact runEmitLen M acts initState 0 (by decide)
  · intro u db items
    rw [appendAllEq]
    simp
